import Mathlib

/-!
Verification development for the `express-mongo-sanitize` sanitization engine.

The repository ships several variants of the engine:
* `src/index.js` — a self-contained variant (namespace `Index` below);
* `src/unnamed/part_000` — a close sibling of `src/index.js` with a
  sequential per-pattern `sanitizeString` and an email-value exemption
  (namespace `P0` below);
* `src/helpers.js` — the helper-module variant whose `sanitizeValue` /
  `handleRequest` are used by the package entry point (namespace `H` below).

JavaScript values are embedded as the inductive `JsValue` (JSON-representable
request payloads: null, booleans, numbers, strings, arrays, plain objects).
Regular expressions from the source are embedded as explicit matcher
functions on character lists; the statefulness of `RegExp.prototype.test`
on the frozen global-flag pattern objects (`lastIndex`) is modelled by
threading a list of `lastIndex` values through the traversal.
-/

/-! Embedded JavaScript values (JSON-representable request payloads).
Arrays and objects are represented through the mutual types `JsList` and
`JsEntries` (insertion-ordered key/value entries). -/

mutual

inductive JsValue where
  | vNull : JsValue
  | vBool : Bool → JsValue
  | vNum : Int → JsValue
  | vStr : String → JsValue
  | vArr : JsList → JsValue
  | vObj : JsEntries → JsValue
deriving DecidableEq

inductive JsList where
  | nil : JsList
  | cons : JsValue → JsList → JsList
deriving DecidableEq

inductive JsEntries where
  | nil : JsEntries
  | cons : String → JsValue → JsEntries → JsEntries
deriving DecidableEq

end

open JsValue

def JsList.ofList : List JsValue → JsList
  | [] => .nil
  | x :: xs => .cons x (JsList.ofList xs)

def JsEntries.ofList : List (String × JsValue) → JsEntries
  | [] => .nil
  | (k, v) :: xs => .cons k v (JsEntries.ofList xs)

/-- Array literal notation helper: `jArr [a, b]` is the value `[a, b]`. -/
def jArr (l : List JsValue) : JsValue := vArr (JsList.ofList l)

/-- Object literal notation helper: `jObj [(k, v), ...]`. -/
def jObj (l : List (String × JsValue)) : JsValue := vObj (JsEntries.ofList l)

/-- JavaScript truthiness on embedded values: `null`, `false`, `0` and `""`
are falsy, everything else (including `{}` and `[]`) is truthy. -/
def truthy : JsValue → Bool
  | vNull => false
  | vBool b => b
  | vNum n => n != 0
  | vStr s => !s.isEmpty
  | vArr _ => true
  | vObj _ => true

/-- `isPrimitive` from src/index.js:90: null/undefined, boolean or number. -/
def isPrimitive : JsValue → Bool
  | vNull => true
  | vBool _ => true
  | vNum _ => true
  | _ => false

/-- `key.startsWith('$')`, on the underlying character data. -/
def startsWithDollar (s : String) : Bool :=
  match s.data with
  | [] => false
  | c :: _ => c == '$'

/-- Does the object have an own property `k`? -/
def hasKey : JsEntries → String → Bool
  | .nil, _ => false
  | .cons k _ t, key => k == key || hasKey t key

/-- Overwrite the value stored at (every entry with) key `k`. -/
def setKey : JsEntries → String → JsValue → JsEntries
  | .nil, _, _ => .nil
  | .cons k v t, key, nv =>
    if k == key then .cons key nv (setKey t key nv) else .cons k v (setKey t key nv)

def JsEntries.append : JsEntries → JsEntries → JsEntries
  | .nil, e => e
  | .cons k v t, e => .cons k v (t.append e)

/-- JavaScript property assignment `acc[k] = v` on an insertion-ordered
object: an existing key keeps its position and gets the new value, a fresh
key is appended. -/
def objInsert (es : JsEntries) (k : String) (v : JsValue) : JsEntries :=
  if hasKey es k then setKey es k v else es.append (.cons k v .nil)

/-- `Object.prototype.hasOwnProperty`-based lookup: the stored value of
key `k`, if present. -/
def getKey : JsEntries → String → Option JsValue
  | .nil, _ => none
  | .cons k v t, key => if k == key then some v else getKey t key

/-! ### Character classes, trim, lowercase -/

/-- The JavaScript whitespace class: the characters matched by `\s` and
removed by `String.prototype.trim`. -/
def isSpaceJS (c : Char) : Bool :=
  c == ' ' || c == '\t' || c == '\n' || c == '\r' || c == '\x0b' || c == '\x0c' ||
  c.toNat == 0xa0 || c.toNat == 0x1680 ||
  (decide (0x2000 ≤ c.toNat) && decide (c.toNat ≤ 0x200a)) ||
  c.toNat == 0x2028 || c.toNat == 0x2029 || c.toNat == 0x202f ||
  c.toNat == 0x205f || c.toNat == 0x3000 || c.toNat == 0xfeff

/-- `String.prototype.trim`: strip leading and trailing whitespace. -/
def jsTrimList (l : List Char) : List Char :=
  ((l.dropWhile isSpaceJS).reverse.dropWhile isSpaceJS).reverse

def jsTrim (s : String) : String := ⟨jsTrimList s.data⟩

/-- `String.prototype.toLowerCase`, restricted to the ASCII letters
(the only case mapping exercised by the development). -/
def jsLower (s : String) : String := ⟨s.data.map Char.toLower⟩

/-- `String.prototype.slice(0, n)`. -/
def jsSlice (s : String) (n : Nat) : String := ⟨s.data.take n⟩

/-! ### Pattern matchers

A `Pat` embeds one regular expression: `matchAt l` returns the length of
the (leftmost-alternative, greedy) match starting at the head of `l`, if
any.  All patterns of the source match at least one character, so a result
`some 0` never occurs for the embedded matchers. -/

structure Pat where
  matchAt : List Char → Option Nat

/-- A single-character class pattern such as `/[\$]/` or `/\./`. -/
def classPat (f : Char → Bool) : Pat :=
  ⟨fun l => match l with
    | [] => none
    | c :: _ => if f c then some 1 else none⟩

/-- JavaScript regex line terminators (not matched by `.`). -/
def isLineTerm (c : Char) : Bool :=
  c == '\n' || c == '\r' || c.toNat == 0x2028 || c.toNat == 0x2029

/-- Greedy match length of `(.|\r?\n)*\}` at the head of `l` (the body of
the `\$?\{(.|\r?\n)*\}` alternative of the fifth default pattern): the
match runs to the furthest closing brace reachable through characters
matched by `.` or by `\r?\n`. -/
def braceBody : List Char → Option Nat
  | [] => none
  | '\r' :: '\n' :: t => (braceBody t).map (· + 2)
  | c :: t =>
    if c == '\n' then (braceBody t).map (· + 1)
    else if isLineTerm c then none
    else
      match braceBody t with
      | some m => some (m + 1)
      | none => if c == '}' then some 1 else none

/-- Matcher of the fifth default pattern `/\{\s*\$|\$?\{(.|\r?\n)*\}/` from
src/index.js:12: try the alternative `\{\s*\$` first (an opening brace, a
maximal whitespace run, then a dollar — shorter runs cannot be followed by
`\$`), then `\$?\{(.|\r?\n)*\}`. -/
def p5MatchAt : List Char → Option Nat
  | '{' :: t =>
    let ws := (t.takeWhile isSpaceJS).length
    if (t.drop ws).headD 'x' == '$' then some (ws + 2)
    else (braceBody t).map (· + 1)
  | '$' :: '{' :: t => (braceBody t).map (· + 2)
  | _ => none

/-- The character class of the third default pattern
`/[\\\/{}.(*+?|[\]^)]/g` from src/index.js:10. -/
def specialChar (c : Char) : Bool :=
  c == '\\' || c == '/' || c == '{' || c == '}' || c == '.' || c == '(' ||
  c == '*' || c == '+' || c == '?' || c == '|' || c == '[' || c == ']' ||
  c == '^' || c == ')'

/-- The ASCII control-character class of the fourth default pattern
`/[\u0000-\u001F\u007F-\u009F]/g` from src/index.js:11. -/
def controlChar (c : Char) : Bool :=
  decide (c.toNat ≤ 0x1f) || (decide (0x7f ≤ c.toNat) && decide (c.toNat ≤ 0x9f))

def pat1 : Pat := classPat (· == '$')
def pat2 : Pat := classPat (· == '.')
def pat3 : Pat := classPat specialChar
def pat4 : Pat := classPat controlChar
def pat5 : Pat := ⟨p5MatchAt⟩

/-- The frozen default pattern collection `PATTERNS` from src/index.js:7-13
(identical in src/unnamed/part_000:18-24). -/
def PATTERNS : List Pat := [pat1, pat2, pat3, pat4, pat5]

/-! ### Replace-all and the stateful global-regex `test` -/

/-- Fuelled scanner for `str.replace(re, r)` with a global pattern: at each
position try the matcher; on a (nonempty) match emit `r` and resume after
the match, otherwise keep the character.  The fuel is an upper bound on the
number of scanned positions; `replaceAll` supplies `l.length`. -/
def replaceAllAux (m : List Char → Option Nat) (r : List Char) :
    Nat → List Char → List Char
  | 0, l => l
  | _ + 1, [] => []
  | f + 1, c :: rest =>
    match m (c :: rest) with
    | some (n + 1) => r ++ replaceAllAux m r f (rest.drop n)
    | _ => c :: replaceAllAux m r f rest

/-- `str.replace(re, r)` for a global regex `re` embedded as matcher `m`
(the replacement string is literal: none of the source's replacements use
`$`-substitutions). -/
def replaceAll (m : List Char → Option Nat) (r : List Char) (l : List Char) :
    List Char :=
  replaceAllAux m r l.length l

/-- First match of `m` at or after the current position in the remaining
suffix; `j` is the absolute index of the suffix head.  Returns match start
and match end. -/
def searchAux (m : List Char → Option Nat) : List Char → Nat → Option (Nat × Nat)
  | [], j =>
    match m [] with
    | some (n + 1) => some (j, j + n + 1)
    | _ => none
  | c :: t, j =>
    match m (c :: t) with
    | some (n + 1) => some (j, j + n + 1)
    | _ => searchAux m t (j + 1)

/-- `pattern.test(s)` for a global regex object: the search starts at the
pattern's `lastIndex`; on success `lastIndex` becomes the match end, on
failure it resets to 0.  Returns the result and the new `lastIndex`. -/
def testG (p : Pat) (s : List Char) (lastIndex : Nat) : Bool × Nat :=
  match searchAux p.matchAt (s.drop lastIndex) lastIndex with
  | some (_, e) => (true, e)
  | none => (false, 0)

/-- `patterns.some((pattern) => pattern.test(x))` over the shared frozen
global pattern objects: short-circuiting, threading the per-pattern
`lastIndex` state (one entry per pattern; patterns beyond the state list
start at 0). -/
def someTestG : List Pat → List Nat → List Char → Bool × List Nat
  | [], _, _ => (false, [])
  | p :: ps, st, s =>
    let r := testG p s (st.headD 0)
    if r.1 then (true, r.2 :: st.tail)
    else
      let rest := someTestG ps st.tail s
      (rest.1, r.2 :: rest.2)

/-- Matcher of the combined alternation `new RegExp(sources.join('|'), 'g')`
built in src/index.js:142: at each position the alternatives are tried in
pattern order. -/
def combinedMatchAt (ps : List Pat) (l : List Char) : Option Nat :=
  ps.findSome? (fun p => p.matchAt l)

/-! ### The email exemption

`isEmail` from src/index.js:59-64 embeds the anchored, case-insensitive
RFC 5322 regex.  Since the regex is anchored at both ends, backtracking
semantics coincide with existential decomposition, which is how the
recognizer below is written. -/

/-- Split at every occurrence of `d` (like `String.prototype.split`). -/
def splitOnChar (d : Char) : List Char → List (List Char)
  | [] => [[]]
  | c :: t =>
    if c == d then [] :: splitOnChar d t
    else
      match splitOnChar d t with
      | s :: rest => (c :: s) :: rest
      | [] => [[c]]

/-- Split at the first occurrence of `'.'`, if any. -/
def dotSplit : List Char → Option (List Char × List Char)
  | [] => none
  | c :: t =>
    if c == '.' then some ([], t)
    else (dotSplit t).map (fun p => (c :: p.1, p.2))

/-- `atext` of the dot-atom local part:
char class of `[a-z0-9!#$%&'*+/=?^_`{|}~-]` under the `i` flag. -/
def atext (c : Char) : Bool :=
  c.isAlpha || c.isDigit ||
  c == '!' || c == '#' || c == '$' || c == '%' || c == '&' || c.toNat == 0x27 ||
  c == '*' || c == '+' || c == '/' || c == '=' || c == '?' || c == '^' ||
  c == '_' || c.toNat == 0x60 || c == '{' || c == '|' || c == '}' || c == '~' ||
  c == '-'

/-- Dot-atom form of the local part: `atext+(\.atext+)*`. -/
def dotAtom (l : List Char) : Bool :=
  (splitOnChar '.' l).all (fun seg => !seg.isEmpty && seg.all atext)

/-- `qtext`: characters allowed bare inside the quoted local part,
`[\x01-\x08\x0b\x0c\x0e-\x1f\x21\x23-\x5b\x5d-\x7f]`. -/
def inRange (c : Char) (lo hi : Nat) : Bool :=
  decide (lo ≤ c.toNat) && decide (c.toNat ≤ hi)

def qtext (c : Char) : Bool :=
  inRange c 0x01 0x08 || inRange c 0x0b 0x0c || inRange c 0x0e 0x1f ||
  c.toNat == 0x21 || inRange c 0x23 0x5b || inRange c 0x5d 0x7f

/-- `quoted-pair` tail: `[\x01-\x09\x0b\x0c\x0e-\x7f]`. -/
def qpair (c : Char) : Bool :=
  inRange c 0x01 0x09 || inRange c 0x0b 0x0c || inRange c 0x0e 0x7f

/-- Body of the quoted local part: `(qtext|\\qpair)*`.  A backslash is not
`qtext`, so it always opens a quoted pair and the scan is deterministic. -/
def qbody : List Char → Bool
  | [] => true
  | '\\' :: c :: t => qpair c && qbody t
  | c :: t => qtext c && qbody t

/-- Quoted form of the local part: `"(qtext|\\qpair)*"`. -/
def quotedLocal : List Char → Bool
  | '"' :: t => !t.isEmpty && t.getLastD 'x' == '"' && qbody t.dropLast
  | _ => false

def emailLocal (l : List Char) : Bool := dotAtom l || quotedLocal l

def alnum (c : Char) : Bool := c.isAlpha || c.isDigit
def alnumhyp (c : Char) : Bool := alnum c || c == '-'

/-- A domain label `[a-z0-9](?:[a-z0-9-]*[a-z0-9])?` (case-insensitive). -/
def isLabel (l : List Char) : Bool :=
  !l.isEmpty && alnum (l.headD 'x') && alnum (l.getLastD 'x') && l.all alnumhyp

/-- The dotted-name domain form `(?:label\.)+label`: at least two labels. -/
def dottedDomain (l : List Char) : Bool :=
  let segs := splitOnChar '.' l
  decide (2 ≤ segs.length) && segs.all isLabel

/-- An IPv4 octet `25[0-5]|2[0-4][0-9]|[01]?[0-9][0-9]?`. -/
def isOct : List Char → Bool
  | [a] => a.isDigit
  | [a, b] => a.isDigit && b.isDigit
  | [a, b, c] =>
    ((a == '0' || a == '1') && b.isDigit && c.isDigit) ||
    (a == '2' && inRange b 0x30 0x34 && c.isDigit) ||
    (a == '2' && b == '5' && inRange c 0x30 0x35)
  | _ => false

/-- First character class of the bracket-literal tail,
`[\x01-\x08\x0b\x0c\x0e-\x1f\x21-\x5a\x53-\x7f]` (the last two ranges
overlap and merge to `\x21-\x7f`). -/
def btext (c : Char) : Bool :=
  inRange c 0x01 0x08 || inRange c 0x0b 0x0c || inRange c 0x0e 0x1f ||
  inRange c 0x21 0x7f

/-- `(btext|\\qpair)*` with full backtracking: a backslash is itself
`btext`, so both readings are explored. -/
def btailSeq : List Char → Bool
  | [] => true
  | '\\' :: c :: t => btailSeq (c :: t) || (qpair c && btailSeq t)
  | c :: t => btext c && btailSeq t

/-- The non-IPv4 final field of a bracket literal:
`[a-z0-9-]*[a-z0-9]:(btext|\\qpair)+`.  The name prefix cannot contain a
colon, so the split is at the first colon. -/
def bracketTailAux (prevAlnum : Bool) : List Char → Bool
  | [] => false
  | c :: t =>
    if c == ':' then prevAlnum && !t.isEmpty && btailSeq t
    else alnumhyp c && bracketTailAux (alnum c) t

def bracketTail (l : List Char) : Bool := bracketTailAux false l

/-- Interior of the bracket literal: three dot-terminated IPv4 octets, then
either a fourth octet or the `name:value` tail.  Octets contain no dots, so
the three separators are the first three dots. -/
def bracketInner (l : List Char) : Bool :=
  match dotSplit l with
  | some (o1, r1) =>
    (match dotSplit r1 with
     | some (o2, r2) =>
       (match dotSplit r2 with
        | some (o3, r3) =>
          isOct o1 && isOct o2 && isOct o3 && (isOct r3 || bracketTail r3)
        | none => false)
     | none => false)
  | none => false

/-- The bracket-literal domain form `\[ ... \]` (anchored at the end, so the
closing bracket is the final character). -/
def bracketDomain : List Char → Bool
  | '[' :: t => !t.isEmpty && t.getLastD 'x' == ']' && bracketInner t.dropLast
  | _ => false

def emailDomain (l : List Char) : Bool := dottedDomain l || bracketDomain l

/-- `isEmail` from src/index.js:59-64: the value matches the anchored
RFC 5322 email regex (the local part is a dot-atom or quoted string, the
domain a dotted name or bracket literal).  The split position is the `@`
separating a valid local part from a valid domain. -/
def isEmail (s : String) : Bool :=
  let l := s.data
  (List.range l.length).any (fun i =>
    l.getD i ' ' == '@' && emailLocal (l.take i) && emailDomain (l.drop (i + 1)))

/-! ### Options

The fields of `DEFAULT_OPTIONS` (src/index.js:19-45) consulted by the value
sanitization pipeline.  `app`, `router`, `routerBasePath`, `mode`,
`skipRoutes` and `sanitizeObjects` only steer the middleware wiring (the
section list is passed to `handleRequest` explicitly below), and
`customSanitizer` is modelled at its default `null`. -/

structure StringOptions where
  trim : Bool
  lowercase : Bool
  maxLength : Option Nat

structure ArrayOptions where
  filterNull : Bool
  distinct : Bool

structure Options where
  replaceWith : String
  removeMatches : Bool
  recursive : Bool
  removeEmpty : Bool
  patterns : List Pat
  allowedKeys : List String
  deniedKeys : List String
  stringOptions : StringOptions
  arrayOptions : ArrayOptions

def DEFAULT_OPTIONS : Options where
  replaceWith := ""
  removeMatches := false
  recursive := true
  removeEmpty := false
  patterns := PATTERNS
  allowedKeys := []
  deniedKeys := []
  stringOptions := ⟨false, false, none⟩
  arrayOptions := ⟨false, false⟩

/-- `[...new Set(xs)]`: SameValueZero keeps the first occurrence of each
primitive value; array/object elements compare by reference and the
sanitizer map has freshly constructed every one of them, so they are all
kept. -/
def isRefType : JsValue → Bool
  | vArr _ => true
  | vObj _ => true
  | _ => false

def memJs (x : JsValue) : List JsValue → Bool
  | [] => false
  | y :: ys => x == y || memJs x ys

def setDedupAux (seen : List JsValue) : JsList → JsList
  | .nil => .nil
  | .cons x xs =>
    if !isRefType x && memJs x seen then setDedupAux seen xs
    else .cons x (setDedupAux (if isRefType x then seen else x :: seen) xs)

def setDedup (l : JsList) : JsList := setDedupAux [] l

def JsList.filter (p : JsValue → Bool) : JsList → JsList
  | .nil => .nil
  | .cons x xs => if p x then .cons x (JsList.filter p xs) else JsList.filter p xs

/-! ### The src/index.js engine (`Index` namespace)

`sanitizeString` joins all pattern sources into one fresh combined global
regex (src/index.js:142), so string replacement is stateless; the
`patterns.some((pattern) => pattern.test(...))` guards of `sanitizeObject`
(src/index.js:186,194) call `test` on the frozen shared pattern objects and
are stateful, so the traversal threads the `lastIndex` list. -/

namespace Index

/-- `sanitizeString` from src/index.js:137-151 (every embedded argument is
a string, so the `!isString(str)` early return is vacuous).  `maxLength`
truncation requires a truthy `stringOptions.maxLength` and value context. -/
def sanitizeString (o : Options) (s : String) (isValue : Bool := false) : String :=
  if isEmail s then s
  else
    let r := String.mk (replaceAll (combinedMatchAt o.patterns) o.replaceWith.data s.data)
    let r := if o.stringOptions.trim then jsTrim r else r
    let r := if o.stringOptions.lowercase then jsLower r else r
    match o.stringOptions.maxLength with
    | some n => if n != 0 && isValue then jsSlice r n else r
    | none => r

mutual

/-- `sanitizeValue` from src/index.js:210-215 (falsy values, primitives and
dates pass through; arrays, plain objects and truthy strings dispatch).
The bodies of `sanitizeArray` (src/index.js:160-169) and `sanitizeObject`
(src/index.js:178-201) are inlined at their call sites; the standalone
wrappers below restate them and agree definitionally. -/
def sanitizeValue (o : Options) (v : JsValue) (isValue : Bool) (st : List Nat) :
    JsValue × List Nat :=
  if !truthy v || isPrimitive v then (v, st)
  else
    match v with
    | vArr l =>
      let r := sanitizeList o l st
      let l1 := if o.arrayOptions.filterNull then r.1.filter truthy else r.1
      let l2 := if o.arrayOptions.distinct then setDedup l1 else l1
      (vArr l2, r.2)
    | vObj es =>
      let r := sanitizeEntries o .nil es st
      (vObj r.1, r.2)
    | vStr s => (vStr (sanitizeString o s isValue), st)
    | w => (w, st)
termination_by structural v

/-- Element map of `sanitizeArray` (src/index.js:164), threading state. -/
def sanitizeList (o : Options) (l : JsList) (st : List Nat) :
    JsList × List Nat :=
  match l with
  | .nil => (.nil, st)
  | .cons x xs =>
    let r := sanitizeValue o x true st
    let rs := sanitizeList o xs r.2
    (.cons r.1 rs.1, rs.2)
termination_by structural l

/-- The `Object.entries(obj).reduce` body of `sanitizeObject`
(src/index.js:182-199), one entry at a time over accumulator `acc`:
1. drop keys failing the allow list or on the deny list (line 183);
2. sanitize the key (line 185);
3. under `removeMatches`, drop keys matched by some pattern (line 186);
4. under `removeEmpty`, drop entries whose sanitized key is empty (187);
5. the email branch of line 189 requires `deniedKeys.has(key)`, which
   step 1 has already excluded, and is therefore unreachable — it is kept
   verbatim;
6. under `removeMatches`, drop entries whose string value is matched (194);
7. sanitize the value (line 196) and assign it unless `removeEmpty` holds
   and the sanitized value is falsy (line 197). -/
def sanitizeEntries (o : Options) (acc : JsEntries) (l : JsEntries) (st : List Nat) :
    JsEntries × List Nat :=
  match l with
  | .nil => (acc, st)
  | .cons k v rest =>
    if (!o.allowedKeys.isEmpty && !o.allowedKeys.contains k) || o.deniedKeys.contains k then
      sanitizeEntries o acc rest st
    else
      let sk := sanitizeString o k false
      let kt := if o.removeMatches then someTestG o.patterns st k.data else (false, st)
      if kt.1 then sanitizeEntries o acc rest kt.2
      else if o.removeEmpty && sk.isEmpty then sanitizeEntries o acc rest kt.2
      else if (match v with | vStr s => isEmail s | _ => false) && o.deniedKeys.contains k then
        sanitizeEntries o (objInsert acc sk v) rest kt.2
      else
        let vt :=
          if o.removeMatches then
            match v with
            | vStr s => someTestG o.patterns kt.2 s.data
            | _ => (false, kt.2)
          else (false, kt.2)
        if vt.1 then sanitizeEntries o acc rest vt.2
        else
          let sv := sanitizeValue o v true vt.2
          if !o.removeEmpty || truthy sv.1 then
            sanitizeEntries o (objInsert acc sk sv.1) rest sv.2
          else
            sanitizeEntries o acc rest sv.2
termination_by structural l

end

/-- `sanitizeArray` from src/index.js:160-169: map every element with
`isValue = true`, then `filter(Boolean)` when `filterNull`, then Set
deduplication when `distinct`. -/
def sanitizeArray (o : Options) (l : JsList) (st : List Nat) :
    JsValue × List Nat :=
  let r := sanitizeList o l st
  let l1 := if o.arrayOptions.filterNull then r.1.filter truthy else r.1
  let l2 := if o.arrayOptions.distinct then setDedup l1 else l1
  (vArr l2, r.2)

/-- `sanitizeObject` from src/index.js:178-201 on a plain object (for which
the `isPlainObject` type guard holds). -/
def sanitizeObject (o : Options) (es : JsEntries) (st : List Nat) :
    JsEntries × List Nat :=
  sanitizeEntries o .nil es st

end Index

/-! ### The src/unnamed/part_000 engine (`P0` namespace)

Identical to the src/index.js engine except:
* `sanitizeString` (part_000:65-77) applies the patterns sequentially via
  `patterns.reduce((acc, pattern) => acc.replace(pattern, replaceWith), str)`
  instead of one combined alternation;
* the email-value exemption (part_000:115-118) is
  `if (isEmail(val)) { acc[sanitizedKey] = val; return acc; }` — without the
  unreachable `deniedKeys.has(key)` conjunct of src/index.js:189.
part_000's `helpers` module is not in the repository; its `isEmail` is the
same RFC 5322 predicate as src/index.js:59-64, which both variants share
here. -/

namespace P0

/-- `sanitizeString` from src/unnamed/part_000:65-77: sequential
per-pattern replace-all in configured order, then the same string
post-processing as src/index.js. -/
def sanitizeString (o : Options) (s : String) (isValue : Bool := false) : String :=
  if isEmail s then s
  else
    let r := String.mk
      (o.patterns.foldl (fun acc p => replaceAll p.matchAt o.replaceWith.data acc) s.data)
    let r := if o.stringOptions.trim then jsTrim r else r
    let r := if o.stringOptions.lowercase then jsLower r else r
    match o.stringOptions.maxLength with
    | some n => if n != 0 && isValue then jsSlice r n else r
    | none => r

mutual

/-- `sanitizeValue` from src/unnamed/part_000:136-141 (same dispatch as
src/index.js:210-215, with array/object bodies inlined as in `Index`). -/
def sanitizeValue (o : Options) (v : JsValue) (isValue : Bool) (st : List Nat) :
    JsValue × List Nat :=
  if !truthy v || isPrimitive v then (v, st)
  else
    match v with
    | vArr l =>
      let r := sanitizeList o l st
      let l1 := if o.arrayOptions.filterNull then r.1.filter truthy else r.1
      let l2 := if o.arrayOptions.distinct then setDedup l1 else l1
      (vArr l2, r.2)
    | vObj es =>
      let r := sanitizeEntries o .nil es st
      (vObj r.1, r.2)
    | vStr s => (vStr (sanitizeString o s isValue), st)
    | w => (w, st)
termination_by structural v

/-- Element map of `sanitizeArray` (part_000:90), threading state. -/
def sanitizeList (o : Options) (l : JsList) (st : List Nat) :
    JsList × List Nat :=
  match l with
  | .nil => (.nil, st)
  | .cons x xs =>
    let r := sanitizeValue o x true st
    let rs := sanitizeList o xs r.2
    (.cons r.1 rs.1, rs.2)
termination_by structural l

/-- The `Object.entries(obj).reduce` body of `sanitizeObject`
(part_000:108-126): as in src/index.js, but the email-value branch
(part_000:115-118) fires for every email-formatted string value and
assigns it unchanged before the `removeMatches` value test. -/
def sanitizeEntries (o : Options) (acc : JsEntries) (l : JsEntries) (st : List Nat) :
    JsEntries × List Nat :=
  match l with
  | .nil => (acc, st)
  | .cons k v rest =>
    if (!o.allowedKeys.isEmpty && !o.allowedKeys.contains k) || o.deniedKeys.contains k then
      sanitizeEntries o acc rest st
    else
      let sk := sanitizeString o k false
      let kt := if o.removeMatches then someTestG o.patterns st k.data else (false, st)
      if kt.1 then sanitizeEntries o acc rest kt.2
      else if o.removeEmpty && sk.isEmpty then sanitizeEntries o acc rest kt.2
      else if (match v with | vStr s => isEmail s | _ => false) then
        sanitizeEntries o (objInsert acc sk v) rest kt.2
      else
        let vt :=
          if o.removeMatches then
            match v with
            | vStr s => someTestG o.patterns kt.2 s.data
            | _ => (false, kt.2)
          else (false, kt.2)
        if vt.1 then sanitizeEntries o acc rest vt.2
        else
          let sv := sanitizeValue o v true vt.2
          if !o.removeEmpty || truthy sv.1 then
            sanitizeEntries o (objInsert acc sk sv.1) rest sv.2
          else
            sanitizeEntries o acc rest sv.2
termination_by structural l

end

/-- `sanitizeObject` from src/unnamed/part_000:104-127. -/
def sanitizeObject (o : Options) (es : JsEntries) (st : List Nat) :
    JsEntries × List Nat :=
  sanitizeEntries o .nil es st

end P0

/-! ### The src/helpers.js engine (`H` namespace) -/

/-- Matcher of `/\{.*\$.*\}/g` from src/helpers.js:3: an opening brace, a
dollar and a later closing brace, all on one line-terminator-free stretch
(`.` does not cross line terminators); greedy, so the match ends at the
last closing brace of the stretch that has a dollar before it. -/
def hpat3MatchAt : List Char → Option Nat
  | '{' :: t =>
    let stretch := t.takeWhile (fun c => !isLineTerm c)
    (List.range stretch.length).foldl
      (fun acc k =>
        if stretch.getD k 'x' == '}' &&
            (List.range k).any (fun j => stretch.getD j 'x' == '$') then some (k + 2)
        else acc)
      none
  | _ => none

def hpat3 : Pat := ⟨hpat3MatchAt⟩

namespace H

/-- The frozen default pattern collection `PATTERNS` from
src/helpers.js:3: `[/\$/g, /\./g, /\{.*\$.*\}/g]`. -/
def PATTERNS : List Pat := [pat1, pat2, hpat3]

/-- `isEmail` from src/helpers.js:104-106:
`/^[a-zA-Z0-9._%+-]+@[a-zA-Z0-9.-]+\.[a-zA-Z]{2,}$/`, as an existential
decomposition (the regex is anchored at both ends). -/
def isEmail (s : String) : Bool :=
  let l := s.data
  (List.range l.length).any (fun i =>
    l.getD i ' ' == '@' &&
    (let loc := l.take i
     !loc.isEmpty && loc.all (fun c =>
       c.isAlpha || c.isDigit || c == '.' || c == '_' || c == '%' || c == '+' || c == '-')) &&
    (let rest := l.drop (i + 1)
     (List.range rest.length).any (fun j =>
       rest.getD j ' ' == '.' &&
       (let mid := rest.take j
        !mid.isEmpty && mid.all (fun c => c.isAlpha || c.isDigit || c == '.' || c == '-')) &&
       (let tl := rest.drop (j + 1)
        decide (2 ≤ tl.length) && tl.all Char.isAlpha))))

end H

/-- The option record reaching the src/helpers.js engine.  helpers.js
guards every optional option group (`options.stringOptions && ...` etc.),
and its own `DEFAULT_OPTIONS` (src/helpers.js:5-14) sets none of them, so
the optional groups are embedded as `Option` fields (`none` = absent).
`customSanitizer` is modelled at its default absent value. -/
structure HOptions where
  replaceWith : String
  removeMatches : Bool
  recursive : Bool
  removeEmpty : Bool
  patterns : List Pat
  allowedKeys : Option (List String)
  deniedKeys : Option (List String)
  stringOptions : Option StringOptions
  arrayOptions : Option ArrayOptions

/-- The effective configuration of src/helpers.js with no user options:
`DEFAULT_OPTIONS` from src/helpers.js:5-14. -/
def H_DEFAULTS : HOptions where
  replaceWith := ""
  removeMatches := false
  recursive := true
  removeEmpty := false
  patterns := H.PATTERNS
  allowedKeys := none
  deniedKeys := none
  stringOptions := none
  arrayOptions := none

namespace H

/-- `sanitizeString` from src/helpers.js:108-131: email exemption, then a
sequential per-pattern replace-all (`String.prototype.replace` always
scans from position 0, so this loop is stateless), then the optional
string post-processing (`maxLength` truncates only when the result is
longer). -/
def sanitizeString (o : HOptions) (s : String) : String :=
  if isEmail s then s
  else
    let r := String.mk
      (o.patterns.foldl (fun acc p => replaceAll p.matchAt o.replaceWith.data acc) s.data)
    match o.stringOptions with
    | none => r
    | some so =>
      let r := if so.trim then jsTrim r else r
      let r := if so.lowercase then jsLower r else r
      match so.maxLength with
      | some n => if n != 0 && decide (n < r.data.length) then jsSlice r n else r
      | none => r

/-- `typeof item === 'object'` (true for null, arrays and plain objects). -/
def typeofObject : JsValue → Bool
  | vNull => true
  | vArr _ => true
  | vObj _ => true
  | _ => false

/-- `array.every((item) => typeof item !== 'object' || item === null)`:
the guard choosing Set-based deduplication (src/helpers.js:157). -/
def allSimple : JsList → Bool
  | .nil => true
  | .cons x xs => (!typeofObject x || x == vNull) && allSimple xs

/-- First-occurrence value deduplication.  On the simple branch this is
`[...new Set(array)]` over primitive values; on the other branch it is the
`JSON.stringify`-keyed dedup of src/helpers.js:160-171, and stringify-key
equality coincides with structural equality on the embedded domain. -/
def dedupJs (seen : List JsValue) : JsList → JsList
  | .nil => .nil
  | .cons x xs =>
    if memJs x seen then dedupJs seen xs
    else .cons x (dedupJs (x :: seen) xs)

mutual

/-- `sanitizeValue` from src/helpers.js:133-254.  null/undefined, numbers,
booleans (and dates, absent from the JSON-representable domain) pass
through; email-formatted strings pass through; arrays are copied, mapped
only under `recursive`, then filtered/deduplicated per `arrayOptions`;
plain objects run the entry loop; other strings get `sanitizeString`. -/
def sanitizeValue (o : HOptions) (v : JsValue) (st : List Nat) :
    JsValue × List Nat :=
  match v with
  | vNull => (vNull, st)
  | vNum n => (vNum n, st)
  | vBool b => (vBool b, st)
  | vStr s =>
    if isEmail s then (vStr s, st) else (vStr (sanitizeString o s), st)
  | vArr l =>
    let r := if o.recursive then sanitizeList o l st else (l, st)
    let l2 :=
      match o.arrayOptions with
      | none => r.1
      | some ao =>
        let la := if ao.filterNull then r.1.filter (fun x => !(x == vNull)) else r.1
        if ao.distinct then
          if allSimple la then dedupJs [] la else dedupJs [] la
        else la
    (vArr l2, r.2)
  | vObj es =>
    let r := sanitizeEntries o .nil es st
    (vObj r.1, r.2)
termination_by structural v

def sanitizeList (o : HOptions) (l : JsList) (st : List Nat) :
    JsList × List Nat :=
  match l with
  | .nil => (.nil, st)
  | .cons x xs =>
    let r := sanitizeValue o x st
    let rs := sanitizeList o xs r.2
    (.cons r.1 rs.1, rs.2)
termination_by structural l

/-- The entry loop of the plain-object branch (src/helpers.js:182-246):
1. keys beginning with `$` are dropped outright (line 183);
2. under `removeMatches`, keys matched by some shared global pattern are
   dropped (stateful `pattern.test`, lines 189-198);
3. the allow list (when present and non-empty) then the deny list apply to
   the original key (lines 200-206);
4. entries whose sanitized key is empty are dropped (lines 208-209);
5. under `removeMatches`, entries whose string value is matched are
   dropped (lines 213-222);
6. the value is recursed under `recursive`, else string values get
   `sanitizeString` and everything else passes through (lines 229-233);
7. under `removeEmpty`, entries whose sanitized value is `''`, `{}` or
   `[]` are dropped (lines 235-243);
8. the survivor is assigned at the sanitized key (line 245). -/
def sanitizeEntries (o : HOptions) (acc : JsEntries) (l : JsEntries) (st : List Nat) :
    JsEntries × List Nat :=
  match l with
  | .nil => (acc, st)
  | .cons k v rest =>
    if startsWithDollar k then sanitizeEntries o acc rest st
    else
      let kt := if o.removeMatches then someTestG o.patterns st k.data else (false, st)
      if kt.1 then sanitizeEntries o acc rest kt.2
      else if (match o.allowedKeys with
               | some al => !al.isEmpty && !al.contains k
               | none => false) then
        sanitizeEntries o acc rest kt.2
      else if (match o.deniedKeys with
               | some dl => !dl.isEmpty && dl.contains k
               | none => false) then
        sanitizeEntries o acc rest kt.2
      else
        let sk := sanitizeString o k
        if sk.isEmpty then sanitizeEntries o acc rest kt.2
        else
          let vt :=
            if o.removeMatches then
              match v with
              | vStr s => someTestG o.patterns kt.2 s.data
              | _ => (false, kt.2)
            else (false, kt.2)
          if vt.1 then sanitizeEntries o acc rest vt.2
          else
            let sv :=
              if o.recursive then sanitizeValue o v vt.2
              else
                match v with
                | vStr s => (vStr (sanitizeString o s), vt.2)
                | _ => (v, vt.2)
            if o.removeEmpty &&
                (sv.1 == vStr "" || sv.1 == vObj .nil || sv.1 == vArr .nil) then
              sanitizeEntries o acc rest sv.2
            else
              sanitizeEntries o (objInsert acc sk sv.1) rest sv.2
termination_by structural l

end

end H

/-! ### Request sections and in-place mutation

`handleRequest` mutates request sections.  Object identity is embedded
with a small store of numbered objects; request fields hold addresses, so
"mutated in place" (same address, new content) and "replaced" (field now
holds a fresh address) are distinguishable. -/

structure Store where
  objs : List (Nat × JsEntries)
  next : Nat
deriving DecidableEq

def Store.get? (s : Store) (a : Nat) : Option JsEntries :=
  (s.objs.find? (fun e => e.1 == a)).map (fun e => e.2)

/-- Mutate the object at address `a`: its content becomes `o`. -/
def Store.set (s : Store) (a : Nat) (o : JsEntries) : Store :=
  ⟨s.objs.map (fun e => if e.1 == a then (a, o) else e), s.next⟩

/-- Allocate a fresh object with content `o`. -/
def Store.alloc (s : Store) (o : JsEntries) : Nat × Store :=
  (s.next, ⟨s.objs ++ [(s.next, o)], s.next + 1⟩)

/-- The request: each sanitizable section is absent or an object
reference. -/
structure Req where
  body : Option Nat
  params : Option Nat
  query : Option Nat
deriving DecidableEq

def Req.get (r : Req) : String → Option Nat
  | "body" => r.body
  | "params" => r.params
  | "query" => r.query
  | _ => none

def Req.set (r : Req) (name : String) (a : Nat) : Req :=
  if name == "body" then { r with body := some a }
  else if name == "params" then { r with params := some a }
  else if name == "query" then { r with query := some a }
  else r

namespace Index

/-- `isObjectEmpty` from src/index.js:73-76: a plain object with no own
keys. -/
def isObjectEmpty : JsEntries → Bool
  | .nil => true
  | .cons _ _ _ => false

/-- One iteration of `handleRequest` from src/index.js:254-269 with the
default `customSanitizer = null`: a present, non-empty section object is
shallow-copied, sanitized, and the section field is assigned the freshly
constructed result object (`request[sanitizeObject] = sanitizeValue(...)`,
src/index.js:262-264) — the field ends up holding a new reference. -/
def handleSection (o : Options) (r : Req) (s : Store) (st : List Nat) (name : String) :
    Req × Store × List Nat :=
  match r.get name with
  | none => (r, s, st)
  | some a =>
    match s.get? a with
    | none => (r, s, st)
    | some content =>
      if isObjectEmpty content then (r, s, st)
      else
        let sv := sanitizeValue o (vObj content) false st
        let entries := match sv.1 with | vObj es => es | _ => .nil
        let al := s.alloc entries
        (r.set name al.1, al.2, sv.2)

/-- `handleRequest` from src/index.js:254-269 over the configured
`sanitizeObjects` section names. -/
def handleRequest (o : Options) (names : List String) (r : Req) (s : Store)
    (st : List Nat) : Req × Store × List Nat :=
  match names with
  | [] => (r, s, st)
  | n :: rest =>
    let step := handleSection o r s st n
    handleRequest o rest step.1 step.2.1 step.2.2

end Index

namespace H

def entriesHasDollar : JsEntries → Bool
  | .nil => false
  | .cons k _ t => startsWithDollar k || entriesHasDollar t

/-- src/helpers.js:265-266: delete the `$`-prefixed top-level keys of the
copied section before sanitizing. -/
def dropDollarKeys : JsEntries → JsEntries
  | .nil => .nil
  | .cons k v t => if startsWithDollar k then dropDollarKeys t else .cons k v (dropDollarKeys t)

/-- `delete obj[key]`. -/
def removeKey (key : String) : JsEntries → JsEntries
  | .nil => .nil
  | .cons k v t => if k == key then removeKey key t else .cons k v (removeKey key t)

/-- One iteration of `handleRequest` from src/helpers.js:256-298: copy the
section, delete its `$`-prefixed top-level keys, sanitize the copy; for
`body`, drop a sanitized `query` sub-object that came out empty or whose
original counterpart had `$`-keys (src/helpers.js:270-277); then `query`
and `params` sections are mutated in place — every existing key deleted
and the sanitized entries assigned onto the same object
(src/helpers.js:280-287) — while other sections are assigned the fresh
object (src/helpers.js:289). -/
def handleSection (o : HOptions) (r : Req) (s : Store) (st : List Nat) (name : String) :
    Req × Store × List Nat :=
  match r.get name with
  | none => (r, s, st)
  | some a =>
    match s.get? a with
    | none => (r, s, st)
    | some content =>
      let original := dropDollarKeys content
      let sv := sanitizeValue o (vObj original) st
      let sanitized := match sv.1 with | vObj es => es | _ => .nil
      let sanitized :=
        if name == "body" then
          match getKey sanitized "query" with
          | some (vObj qes) =>
            if (match qes with | .nil => true | _ => false) ||
                (match getKey original "query" with
                 | some (vObj oes) => entriesHasDollar oes
                 | _ => false) then
              removeKey "query" sanitized
            else sanitized
          | some (vArr ql) =>
            if (match ql with | .nil => true | _ => false) ||
                (match getKey original "query" with
                 | some (vObj oes) => entriesHasDollar oes
                 | _ => false) then
              removeKey "query" sanitized
            else sanitized
          | _ => sanitized
        else sanitized
      if name == "query" || name == "params" then
        (r, s.set a sanitized, sv.2)
      else
        let al := s.alloc sanitized
        (r.set name al.1, al.2, sv.2)

def handleRequest (o : HOptions) (names : List String) (r : Req) (s : Store)
    (st : List Nat) : Req × Store × List Nat :=
  match names with
  | [] => (r, s, st)
  | n :: rest =>
    let step := handleSection o r s st n
    handleRequest o rest step.1 step.2.1 step.2.2

end H

/-! ### Derived predicates and option records used by the claims -/

/-- Key membership in an embedded object. -/
def keyMem (k : String) : JsEntries → Bool
  | .nil => false
  | .cons k2 _ t => k == k2 || keyMem k t

/-- The single characters removed by the default pattern set: the first
four default patterns are one-character classes, and in the combined
alternation the fifth pattern never wins (its matches start with `$` or
`{`, which the first or third alternative already takes). -/
def sChar (c : Char) : Bool :=
  c == '$' || c == '.' || specialChar c || controlChar c

def JsList.all (p : JsValue → Bool) : JsList → Bool
  | .nil => true
  | .cons x xs => p x && JsList.all p xs

/-- Pairwise-distinct keys (as every JavaScript object has). -/
def keysNodupOk : JsEntries → Bool
  | .nil => true
  | .cons k _ t => !hasKey t k && keysNodupOk t

/-- No configured pattern matches anywhere in `s` (the claims' notion of a
clean string: `patterns.some((p) => p.test(s))` is false from a fresh
state). -/
def stringClean (ps : List Pat) (s : String) : Bool :=
  ps.all (fun p => (searchAux p.matchAt s.data 0).isNone)

mutual

/-- No configured pattern matches any key or string value remaining in the
value. -/
def valueClean (ps : List Pat) : JsValue → Bool
  | vStr s => stringClean ps s
  | vArr l => listClean ps l
  | vObj es => entriesClean ps es
  | _ => true
termination_by structural v => v

def listClean (ps : List Pat) : JsList → Bool
  | .nil => true
  | .cons x xs => valueClean ps x && listClean ps xs
termination_by structural l => l

def entriesClean (ps : List Pat) : JsEntries → Bool
  | .nil => true
  | .cons k v t => stringClean ps k && valueClean ps v && entriesClean ps t
termination_by structural l => l

end

/-- `s` is a fixed point of the enabled string post-processing steps. -/
def strSettled (so : StringOptions) (s : String) : Bool :=
  (!so.trim || jsTrim s == s) && (!so.lowercase || jsLower s == s)

mutual

/-- Structural invariants of src/index.js sanitizer output (under
`removeMatches = false`, empty key lists and disabled `maxLength`): every
string is an email or a fixed point of the enabled post-processing, arrays
are already filtered/deduplicated as configured, object keys are distinct
and, under `removeEmpty`, object values are truthy. -/
def valueProcessed (o : Options) : JsValue → Bool
  | vStr s => isEmail s || s.isEmpty || strSettled o.stringOptions s
  | vArr l =>
    listProcessed o l &&
    (!o.arrayOptions.filterNull || l.all truthy) &&
    (!o.arrayOptions.distinct || setDedup l == l)
  | vObj es => entriesProcessed o es && keysNodupOk es
  | _ => true
termination_by structural v => v

def listProcessed (o : Options) : JsList → Bool
  | .nil => true
  | .cons x xs => valueProcessed o x && listProcessed o xs
termination_by structural l => l

def entriesProcessed (o : Options) : JsEntries → Bool
  | .nil => true
  | .cons k v t =>
    (isEmail k || strSettled o.stringOptions k) && valueProcessed o v &&
    (!o.removeEmpty || (!k.isEmpty && truthy v)) && entriesProcessed o t
termination_by structural l => l

end

/-- No key of the second object is already a key of the first. -/
def keysDisjoint (acc : JsEntries) : JsEntries → Bool
  | .nil => true
  | .cons k _ t => !hasKey acc k && keysDisjoint acc t

/-- The default configuration with `removeEmpty` enabled. -/
def optsRemoveEmpty : Options := { DEFAULT_OPTIONS with removeEmpty := true }

def hoptsRemoveEmpty : HOptions := { H_DEFAULTS with removeEmpty := true }

/-- The default configuration with `recursive` disabled. -/
def optsRecursiveOff : Options := { DEFAULT_OPTIONS with recursive := false }

def hoptsRecursiveOff : HOptions := { H_DEFAULTS with recursive := false }

/-- The default configuration with `removeMatches` enabled. -/
def optsRemoveMatches : Options := { DEFAULT_OPTIONS with removeMatches := true }

/-- The default configuration with `arrayOptions = {filterNull: true,
distinct: true}`. -/
def optsArrayFD : Options := { DEFAULT_OPTIONS with arrayOptions := ⟨true, true⟩ }

def hoptsArrayFD : HOptions := { H_DEFAULTS with arrayOptions := some ⟨true, true⟩ }

/-- The default configuration with `replaceWith = 'x.y'` (a replacement
containing a character the patterns match). -/
def optsReplaceWith : Options := { DEFAULT_OPTIONS with replaceWith := "x.y" }

/-- The default configuration restricted to `allowedKeys = ['a.b']`. -/
def optsAllowed : Options := { DEFAULT_OPTIONS with allowedKeys := ["a.b"] }

/-- The default configuration with `stringOptions = {trim: true,
maxLength: 2}`. -/
def optsTrimMax : Options :=
  { DEFAULT_OPTIONS with stringOptions := ⟨true, false, some 2⟩ }

/-- An `Options` record with `removeMatches = false`, empty
`allowedKeys`/`deniedKeys` and `maxLength` disabled — the configurations of
the amended idempotence claim; the remaining knobs are free. -/
def openOpts (ps : List Pat) (rw : String) (recv re tr lc fn dis : Bool) : Options where
  replaceWith := rw
  removeMatches := false
  recursive := recv
  removeEmpty := re
  patterns := ps
  allowedKeys := []
  deniedKeys := []
  stringOptions := ⟨tr, lc, none⟩
  arrayOptions := ⟨fn, dis⟩

/-! ## Theorems

First a mutual structural induction helper for the value domain, then
auxiliary lemmas, then one theorem per claim (with witnesses and
counterexamples as required). -/

theorem js_mutual_ind (P : JsValue → Prop) (Q : JsList → Prop) (R : JsEntries → Prop)
    (h1 : P vNull) (h2 : ∀ b, P (vBool b)) (h3 : ∀ n, P (vNum n)) (h4 : ∀ s, P (vStr s))
    (h5 : ∀ l, Q l → P (vArr l)) (h6 : ∀ es, R es → P (vObj es))
    (h7 : Q .nil) (h8 : ∀ x xs, P x → Q xs → Q (.cons x xs))
    (h9 : R .nil) (h10 : ∀ k v t, P v → R t → R (.cons k v t)) :
    (∀ v, P v) ∧ (∀ l, Q l) ∧ (∀ es, R es) :=
  ⟨fun v => JsValue.rec h1 h2 h3 h4 h5 h6 h7 h8 h9 h10 v,
   fun l => JsList.rec h1 h2 h3 h4 h5 h6 h7 h8 h9 h10 l,
   fun es => JsEntries.rec h1 h2 h3 h4 h5 h6 h7 h8 h9 h10 es⟩

/-- List-only structural induction for `JsList`. -/
theorem jsList_ind (Q : JsList → Prop) (nil : Q .nil)
    (cons : ∀ x xs, Q xs → Q (.cons x xs)) : ∀ l, Q l :=
  (js_mutual_ind (fun _ => True) Q (fun _ => True) trivial (fun _ => trivial)
    (fun _ => trivial) (fun _ => trivial) (fun _ _ => trivial) (fun _ _ => trivial)
    nil (fun x xs _ h => cons x xs h) trivial (fun _ _ _ _ _ => trivial)).2.1

/-- Entries-only structural induction for `JsEntries`. -/
theorem jsEntries_ind (R : JsEntries → Prop) (nil : R .nil)
    (cons : ∀ k v t, R t → R (.cons k v t)) : ∀ es, R es :=
  (js_mutual_ind (fun _ => True) (fun _ => True) R trivial (fun _ => trivial)
    (fun _ => trivial) (fun _ => trivial) (fun _ _ => trivial) (fun _ _ => trivial)
    trivial (fun _ _ _ _ => trivial) nil (fun k v t _ h => cons k v t h)).2.2

/-- C2: with `removeEmpty = true` the src/index.js engine keeps an
entry whose sanitized value is the empty mapping (`{}` is truthy, so the
`!removeEmpty || sanitizedValue` guard of src/index.js:197 passes), and it
drops a `null`-valued entry; the src/helpers.js engine (matching the claim
and the removeEmpty test of src/unnamed/part_001:358-375) drops exactly
the `''`/`{}` entries and keeps the `null` one. -/
theorem C2_code_eval :
    Index.sanitizeObject optsRemoveEmpty (JsEntries.ofList
      [("name", vStr "John"), ("empty", vStr ""), ("nullValue", vNull),
       ("emptyObject", jObj [])]) [0, 0, 0, 0, 0]
      = (JsEntries.ofList [("name", vStr "John"), ("emptyObject", jObj [])], [0, 0, 0, 0, 0]) ∧
    (H.sanitizeValue hoptsRemoveEmpty (jObj
      [("name", vStr "John"), ("empty", vStr ""), ("nullValue", vNull),
       ("emptyObject", jObj [])]) [0, 0, 0]).1
      = jObj [("name", vStr "John"), ("nullValue", vNull)] := by
  decide

/-- C3: with `recursive = false` the src/index.js engine still sanitizes
inside a nested mapping (`options.recursive` is never consulted by its
sanitizers), while the src/helpers.js engine returns the nested mapping
as-is and still sanitizes the first-level string value. -/
theorem C3_code_eval :
    (Index.sanitizeObject optsRecursiveOff
        (JsEntries.ofList [("a", jObj [("b", vStr "x$y")])]) [0, 0, 0, 0, 0]).1
      = JsEntries.ofList [("a", jObj [("b", vStr "xy")])] ∧
    (H.sanitizeValue hoptsRecursiveOff
        (jObj [("a", jObj [("b", vStr "x$y")]), ("s", vStr "p$q")]) [0, 0, 0]).1
      = jObj [("a", jObj [("b", vStr "x$y")]), ("s", vStr "pq")] := by
  decide

/-- C4: with `removeMatches = true` and the default patterns, an
email-formatted string value is dropped by the src/index.js engine (the
dot pattern matches the email, and the email branch of src/index.js:189 is
unreachable because it also requires `deniedKeys.has(key)`), while the
src/unnamed/part_000 engine keeps the entry with the value unchanged, as
the claim states. -/
theorem C4_code_eval :
    Index.sanitizeObject optsRemoveMatches
        (JsEntries.ofList [("contact", vStr "user@example.com")]) [0, 0, 0, 0, 0]
      = (.nil, [0, 13, 0, 0, 0]) ∧
    P0.sanitizeObject optsRemoveMatches
        (JsEntries.ofList [("contact", vStr "user@example.com")]) [0, 0, 0, 0, 0]
      = (JsEntries.ofList [("contact", vStr "user@example.com")], [0, 0, 0, 0, 0]) := by
  decide

/-- C5: on `['item1', null, 'item2', 'item1', '', null]` with
`arrayOptions = {filterNull: true, distinct: true}` the src/index.js
engine's `filter(Boolean)` also drops the empty string, yielding
`['item1', 'item2']`; the src/helpers.js engine filters only
null/undefined, yielding `['item1', 'item2', '']` as the claim (and the
array test of src/unnamed/part_001:266-284) states. -/
theorem C5_code_eval :
    (Index.sanitizeArray optsArrayFD
        (JsList.ofList [vStr "item1", vNull, vStr "item2", vStr "item1", vStr "", vNull])
        [0, 0, 0, 0, 0]).1
      = jArr [vStr "item1", vStr "item2"] ∧
    (H.sanitizeValue hoptsArrayFD
        (jArr [vStr "item1", vNull, vStr "item2", vStr "item1", vStr "", vNull]) [0, 0, 0]).1
      = jArr [vStr "item1", vStr "item2", vStr ""] := by
  decide

/-- C7: sanitization via src/index.js is not stateless under
`removeMatches = true`: testing the key `'a$'` against the frozen global
dollar pattern advances its `lastIndex` to 2, so the first call drops the
entry while an immediately repeated call on the same input keeps it (as
`{a: 1}`) — two successive invocations disagree. -/
theorem C7_code_eval :
    (Index.sanitizeValue optsRemoveMatches (jObj [("a$", vNum 1)]) false [0, 0, 0, 0, 0]).1
      = jObj [] ∧
    (Index.sanitizeValue optsRemoveMatches (jObj [("a$", vNum 1)]) false
        (Index.sanitizeValue optsRemoveMatches (jObj [("a$", vNum 1)]) false [0, 0, 0, 0, 0]).2).1
      = jObj [("a", vNum 1)] := by
  decide

/-! ### The combined default-pattern replacement is character filtering -/

/-- The fifth default pattern cannot match at a position whose character is
neither `$` nor `{`. -/
theorem p5MatchAt_none (c : Char) (t : List Char) (h1 : c ≠ '{') (h2 : c ≠ '$') :
    p5MatchAt (c :: t) = none := by
  unfold p5MatchAt
  split
  · rename_i heq
    injection heq with hc _
    exact absurd hc h1
  · rename_i heq
    injection heq with hc _
    exact absurd hc h2
  · rfl

/-- In the combined alternation of the default patterns, a position matches
exactly when its character is one of the removed single characters (the
fifth pattern never wins: its matches start with `$` or `{`, which the
first or third alternative already takes as a one-character match). -/
theorem combinedMatchAt_cons (c : Char) (t : List Char) :
    combinedMatchAt PATTERNS (c :: t) = if sChar c then some 1 else none := by
  by_cases hd : c = '$'
  · subst hd; simp [combinedMatchAt, PATTERNS, pat1, classPat, sChar]
  · by_cases hdot : c = '.'
    · subst hdot; simp [combinedMatchAt, PATTERNS, pat1, pat2, classPat, sChar]
    · by_cases hsp : specialChar c = true
      · simp [combinedMatchAt, PATTERNS, pat1, pat2, pat3, classPat, sChar, hd, hdot, hsp]
      · by_cases hct : controlChar c = true
        · simp [combinedMatchAt, PATTERNS, pat1, pat2, pat3, pat4, classPat, sChar,
            hd, hdot, hsp, hct]
        · have hbr : c ≠ '{' := by
            intro hc; subst hc; simp [specialChar] at hsp
          simp [combinedMatchAt, PATTERNS, pat1, pat2, pat3, pat4, pat5, classPat, sChar,
            hd, hdot, hsp, hct, p5MatchAt_none c t hbr hd]

/-- Replacing all matches of the combined default alternation with the
empty string removes exactly the characters of the single-character
classes. -/
theorem replaceAllAux_combined_filter (f : Nat) :
    ∀ l : List Char, l.length ≤ f →
      replaceAllAux (combinedMatchAt PATTERNS) [] f l = l.filter (fun c => !sChar c) := by
  induction f with
  | zero =>
    intro l hl
    cases l with
    | nil => simp [replaceAllAux]
    | cons c t => simp at hl
  | succ f ih =>
    intro l hl
    cases l with
    | nil => simp [replaceAllAux]
    | cons c t =>
      rw [replaceAllAux, combinedMatchAt_cons]
      by_cases hc : sChar c = true
      · simp only [hc, if_pos rfl]
        simp only [List.filter_cons, hc]
        simp only [Bool.not_true, List.nil_append, List.drop_zero]
        exact ih t (by simpa using Nat.le_of_succ_le_succ hl)
      · simp only [hc]
        simp only [Bool.not_eq_true] at hc
        simp [List.filter_cons, hc, ih t (by simpa using Nat.le_of_succ_le_succ hl)]

theorem replaceAll_combined_filter (l : List Char) :
    replaceAll (combinedMatchAt PATTERNS) [] l = l.filter (fun c => !sChar c) :=
  replaceAllAux_combined_filter l.length l (Nat.le_refl _)

/-- The default-pattern pass of `sanitizeString` never leaves a dollar
sign at the head of its output. -/
theorem startsWithDollar_filter (l : List Char) :
    startsWithDollar (String.mk (l.filter (fun c => !sChar c))) = false := by
  induction l with
  | nil => simp [startsWithDollar]
  | cons c t ih =>
    by_cases hc : sChar c = true
    · simpa [List.filter_cons, hc] using ih
    · have hcd : (c == '$') = false := by
        cases hb : c == '$'
        · rfl
        · exact absurd (show sChar c = true by simp [sChar, hb]) (by simp [hc])
      simp [List.filter_cons, hc, startsWithDollar, hcd]

/-! ### Keys reachable through `objInsert` -/

theorem keyMem_setKey (x k : String) (v : JsValue) :
    ∀ es : JsEntries, keyMem x (setKey es k v) = true → x = k ∨ keyMem x es = true := by
  intro es
  induction es using jsEntries_ind with
  | nil => simp [setKey, keyMem]
  | cons k2 v2 t ih =>
    by_cases hk : (k2 == k) = true
    · simp only [setKey, if_pos hk, keyMem, Bool.or_eq_true]
      rintro (hx | hx)
      · exact Or.inl (eq_of_beq hx)
      · rcases ih hx with h | h
        · exact Or.inl h
        · exact Or.inr (Or.inr h)
    · simp only [setKey, if_neg hk, keyMem, Bool.or_eq_true]
      rintro (hx | hx)
      · exact Or.inr (Or.inl hx)
      · rcases ih hx with h | h
        · exact Or.inl h
        · exact Or.inr (Or.inr h)

theorem keyMem_append_single (x k : String) (v : JsValue) :
    ∀ es : JsEntries, keyMem x (es.append (.cons k v .nil)) = true →
      x = k ∨ keyMem x es = true := by
  intro es
  induction es using jsEntries_ind with
  | nil =>
    simp only [JsEntries.append, keyMem, Bool.or_eq_true]
    rintro (hx | hx)
    · exact Or.inl (eq_of_beq hx)
    · simp [keyMem] at hx
  | cons k2 v2 t ih =>
    simp only [JsEntries.append, keyMem, Bool.or_eq_true]
    rintro (hx | hx)
    · exact Or.inr (Or.inl hx)
    · rcases ih hx with h | h
      · exact Or.inl h
      · exact Or.inr (Or.inr h)

theorem keyMem_objInsert (x k : String) (v : JsValue) (es : JsEntries)
    (h : keyMem x (objInsert es k v) = true) : x = k ∨ keyMem x es = true := by
  unfold objInsert at h
  by_cases hk : hasKey es k = true
  · exact keyMem_setKey x k v es (by simpa [hk] using h)
  · exact keyMem_append_single x k v es (by simpa [hk] using h)

/-! ### C1: keys surviving the default configuration -/

/-- Under the default configuration, a sanitized key is either the
original email-formatted key, unchanged, or the dollar-free filtered
string. -/
theorem sanitizeString_default_key (k : String) :
    startsWithDollar (Index.sanitizeString DEFAULT_OPTIONS k false) = true →
    Index.sanitizeString DEFAULT_OPTIONS k false = k ∧ isEmail k = true := by
  intro hsd
  by_cases he : isEmail k = true
  · constructor
    · simp [Index.sanitizeString, he]
    · exact he
  · exfalso
    have : Index.sanitizeString DEFAULT_OPTIONS k false
        = String.mk (k.data.filter (fun c => !sChar c)) := by
      simp [Index.sanitizeString, he, DEFAULT_OPTIONS, replaceAll_combined_filter]
    rw [this, startsWithDollar_filter] at hsd
    exact absurd hsd (by simp)

/-- Invariant form of the amended C1 over the entry loop: if every key of
the accumulator satisfies the sigil-or-email property, so does every key
of the final result. -/
theorem C1_entries_inv (es : JsEntries) :
    ∀ (acc : JsEntries) (st : List Nat) (k : String),
      (∀ k2, keyMem k2 acc = true → startsWithDollar k2 = true → isEmail k2 = true) →
      keyMem k (Index.sanitizeEntries DEFAULT_OPTIONS acc es st).1 = true →
      startsWithDollar k = true → isEmail k = true := by
  induction es using jsEntries_ind with
  | nil =>
    intro acc st k hacc hmem hds
    simp only [Index.sanitizeEntries] at hmem
    exact hacc k hmem hds
  | cons k2 v rest ih =>
    intro acc st k hacc hmem hds
    simp only [Index.sanitizeEntries,
      show DEFAULT_OPTIONS.allowedKeys = [] from rfl,
      show DEFAULT_OPTIONS.deniedKeys = [] from rfl,
      show DEFAULT_OPTIONS.removeMatches = false from rfl,
      show DEFAULT_OPTIONS.removeEmpty = false from rfl,
      List.isEmpty_nil, Bool.not_true, Bool.false_and, List.contains_nil, Bool.or_self,
      Bool.false_eq_true, if_false, Bool.and_false, Bool.not_false, Bool.true_or] at hmem
    refine ih _ _ k ?_ (by exact hmem) hds
    intro k3 hk3 hd3
    rcases keyMem_objInsert k3 _ _ acc hk3 with h | h
    · subst h
      rcases sanitizeString_default_key k2 hd3 with ⟨heq, hem⟩
      rw [heq]
      exact hem
    · exact hacc k3 h hd3

/-- C1 (amended): under the default configuration every key of the output
mapping either does not begin with the operator sigil or is an
email-formatted string that the email exemption of `sanitizeString`
returned unchanged. -/
theorem C1_amended (es : JsEntries) (st : List Nat) (k : String)
    (hmem : keyMem k (Index.sanitizeObject DEFAULT_OPTIONS es st).1 = true)
    (hds : startsWithDollar k = true) : isEmail k = true := by
  refine C1_entries_inv es .nil st k ?_ hmem hds
  intro k2 hk2
  simp [keyMem] at hk2

/-- C1 witness: the amended theorem applied at the concrete input
`{'$a@b.co': 1}`. -/
theorem C1_amended_witness : isEmail "$a@b.co" = true :=
  C1_amended (JsEntries.ofList [("$a@b.co", vNum 1)]) [0, 0, 0, 0, 0] "$a@b.co"
    (by decide) (by decide)

/-- C1 counterexample: the claim as stated is false — the RFC 5322 email
regex of src/index.js:62 accepts `$` in the local part, so the key
`'$a@b.co'` is email-exempt in `sanitizeString` and survives the default
configuration with its operator sigil intact. -/
theorem C1_counterexample :
    (Index.sanitizeObject DEFAULT_OPTIONS
        (JsEntries.ofList [("$a@b.co", vNum 1)]) [0, 0, 0, 0, 0]).1
      = JsEntries.ofList [("$a@b.co", vNum 1)] ∧
    startsWithDollar "$a@b.co" = true := by
  decide

/-! ### C6: section-object identity under `handleRequest` -/

/-- A single src/helpers.js `handleRequest` iteration never rebinds the
`query` or `params` field: those sections are mutated in the store at
their existing address, and only `body` is ever assigned a fresh
reference. -/
theorem H_handleSection_frame (o : HOptions) (r : Req) (s : Store) (st : List Nat)
    (name : String) :
    (H.handleSection o r s st name).1.query = r.query ∧
    (H.handleSection o r s st name).1.params = r.params := by
  unfold H.handleSection
  cases hg : r.get name with
  | none => simp
  | some a =>
    simp only []
    cases hs : s.get? a with
    | none => simp
    | some content =>
      simp only []
      by_cases hqp : (name == "query" || name == "params") = true
      · simp [hqp]
      · simp only [Bool.or_eq_true, not_or, Bool.not_eq_true] at hqp
        obtain ⟨hq, hp⟩ := hqp
        by_cases hb : (name == "body") = true
        · simp [Req.set, hq, hp, hb]
        · simp [Req.set, hq, hp, hb]

/-- C6 (amended): the src/helpers.js `handleRequest` leaves the object
identity of the `query` and `params` request sections unchanged for every
configuration, request, store and section-name list (in-place mutation:
existing entries are deleted and the sanitized entries assigned onto the
same object; only `body`-style sections are rebound to a fresh object). -/
theorem C6_amended (o : HOptions) (names : List String) (r : Req) (s : Store)
    (st : List Nat) :
    (H.handleRequest o names r s st).1.query = r.query ∧
    (H.handleRequest o names r s st).1.params = r.params := by
  induction names generalizing r s st with
  | nil => exact ⟨rfl, rfl⟩
  | cons n rest ih =>
    have hstep := H_handleSection_frame o r s st n
    have hrest := ih (H.handleSection o r s st n).1 (H.handleSection o r s st n).2.1
      (H.handleSection o r s st n).2.2
    unfold H.handleRequest
    exact ⟨hrest.1.trans hstep.1, hrest.2.trans hstep.2⟩

/-- C6 counterexample: the claim as stated is false of the src/index.js
`handleRequest` — on a request whose `query` section is the object at
address 0 holding `{a: 'x$'}`, auto-mode sanitization rebinds `req.query`
to a freshly allocated object (address 1) instead of mutating the object
at address 0 in place. -/
theorem C6_counterexample :
    ((Index.handleRequest DEFAULT_OPTIONS ["body", "params", "query"]
        ⟨none, none, some 0⟩ ⟨[(0, JsEntries.ofList [("a", vStr "x$")])], 1⟩
        [0, 0, 0, 0, 0]).1).query = some 1 ∧
    ((Index.handleRequest DEFAULT_OPTIONS ["body", "params", "query"]
        ⟨none, none, some 0⟩ ⟨[(0, JsEntries.ofList [("a", vStr "x$")])], 1⟩
        [0, 0, 0, 0, 0]).1).query ≠ some 0 := by
  decide

/-! ### With `removeMatches = false` the pattern state is untouched -/

/-- Under `removeMatches = false` no `pattern.test` ever runs, so the
src/index.js traversal returns its `lastIndex` state unchanged. -/
theorem Index_state_id (o : Options) (hrm : o.removeMatches = false) :
    (∀ v : JsValue, ∀ b st, (Index.sanitizeValue o v b st).2 = st) ∧
    (∀ l : JsList, ∀ st, (Index.sanitizeList o l st).2 = st) ∧
    (∀ es : JsEntries, ∀ acc st, (Index.sanitizeEntries o acc es st).2 = st) := by
  refine js_mutual_ind
    (fun v => ∀ b st, (Index.sanitizeValue o v b st).2 = st)
    (fun l => ∀ st, (Index.sanitizeList o l st).2 = st)
    (fun es => ∀ acc st, (Index.sanitizeEntries o acc es st).2 = st)
    ?_ ?_ ?_ ?_ ?_ ?_ ?_ ?_ ?_ ?_
  · intro b st; simp [Index.sanitizeValue, truthy, isPrimitive]
  · intro x b st; simp [Index.sanitizeValue, truthy, isPrimitive]
  · intro n b st; simp [Index.sanitizeValue, truthy, isPrimitive]
  · intro s b st
    simp only [Index.sanitizeValue]
    split <;> rfl
  · intro l ih b st
    simp only [Index.sanitizeValue, truthy, isPrimitive, Bool.not_true, Bool.false_or,
      Bool.false_eq_true, if_false]
    exact ih st
  · intro es ih b st
    simp only [Index.sanitizeValue, truthy, isPrimitive, Bool.not_true, Bool.false_or,
      Bool.false_eq_true, if_false]
    exact ih .nil st
  · intro st; rfl
  · intro x xs ihx ihxs st
    simp only [Index.sanitizeList]
    rw [ihxs, ihx]
  · intro acc st; rfl
  · intro k v t ihv iht acc st
    simp only [Index.sanitizeEntries, hrm, Bool.false_eq_true, if_false]
    split
    · exact iht acc st
    · split
      · exact iht _ st
      · split
        · exact iht _ st
        · split
          · rw [iht, ihv]
          · rw [iht, ihv]

/-! ### C10: colliding sanitized keys -/

/-- C10: when two distinct keys of a mapping sanitize to the same key
under the default configuration, `sanitizeObject` binds that shared key to
the sanitized value of the entry that appears later in insertion order:
the reduce accumulator's `acc[sanitizedKey] = sanitizedValue` silently
overwrites the earlier entry's value in place, no merging and no error
(the embedding is total — the only throw in `sanitizeObject` is the
non-object type guard). -/
theorem C10_last_wins (k1 k2 : String) (v1 v2 : JsValue) (st : List Nat)
    (hne : k1 ≠ k2)
    (hcol : Index.sanitizeString DEFAULT_OPTIONS k1
            = Index.sanitizeString DEFAULT_OPTIONS k2) :
    (Index.sanitizeObject DEFAULT_OPTIONS (.cons k1 v1 (.cons k2 v2 .nil)) st).1
      = .cons (Index.sanitizeString DEFAULT_OPTIONS k2)
          (Index.sanitizeValue DEFAULT_OPTIONS v2 true st).1 .nil := by
  have hst := (Index_state_id DEFAULT_OPTIONS rfl).1
  simp only [Index.sanitizeObject, Index.sanitizeEntries,
    show DEFAULT_OPTIONS.allowedKeys = [] from rfl,
    show DEFAULT_OPTIONS.deniedKeys = [] from rfl,
    show DEFAULT_OPTIONS.removeMatches = false from rfl,
    show DEFAULT_OPTIONS.removeEmpty = false from rfl,
    List.isEmpty_nil, Bool.not_true, Bool.false_and, List.contains_nil, Bool.or_self,
    Bool.false_eq_true, if_false, Bool.and_false, Bool.not_false, Bool.true_or]
  rw [hcol, hst v1 true st]
  simp only [objInsert, hasKey, JsEntries.append, Bool.or_false, beq_self_eq_true,
    Bool.true_or, if_true, setKey]

/-- C10 witness: the keys `'a$b'` and `'ab'` both sanitize to `'ab'` under
the default patterns, and the mapping `{'a$b': 1, 'ab': 2}` sanitizes to
`{ab: 2}` — the later entry's value. -/
theorem C10_last_wins_witness :
    (Index.sanitizeObject DEFAULT_OPTIONS
        (.cons "a$b" (vNum 1) (.cons "ab" (vNum 2) .nil)) [0, 0, 0, 0, 0]).1
      = .cons (Index.sanitizeString DEFAULT_OPTIONS "ab")
          (Index.sanitizeValue DEFAULT_OPTIONS (vNum 2) true [0, 0, 0, 0, 0]).1 .nil :=
  C10_last_wins "a$b" "ab" (vNum 1) (vNum 2) [0, 0, 0, 0, 0] (by decide) (by decide)

/-! ### C8: the combined alternation versus sequential application -/

/-- Replace-all with the empty replacement for a single-character class
pattern is character filtering. -/
theorem replaceAllAux_classPat_filter (g : Char → Bool) (f : Nat) :
    ∀ l : List Char, l.length ≤ f →
      replaceAllAux (classPat g).matchAt [] f l = l.filter (fun c => !g c) := by
  induction f with
  | zero =>
    intro l hl
    cases l with
    | nil => simp [replaceAllAux]
    | cons c t => simp at hl
  | succ f ih =>
    intro l hl
    cases l with
    | nil => simp [replaceAllAux]
    | cons c t =>
      rw [replaceAllAux]
      have hrec := ih t (Nat.le_of_succ_le_succ (by simpa using hl))
      by_cases hc : g c = true
      · simpa [classPat, hc, List.filter_cons] using hrec
      · simpa [classPat, hc, List.filter_cons] using hrec

theorem replaceAll_classPat_filter (g : Char → Bool) (l : List Char) :
    replaceAll (classPat g).matchAt [] l = l.filter (fun c => !g c) :=
  replaceAllAux_classPat_filter g l.length l (Nat.le_refl _)

/-- The fifth default pattern finds no match in a string without dollars
and opening braces, so its replace pass is the identity there. -/
theorem replaceAllAux_p5_id (r : List Char) (f : Nat) :
    ∀ l : List Char, (∀ c ∈ l, c ≠ '$' ∧ c ≠ '{') →
      replaceAllAux p5MatchAt r f l = l := by
  induction f with
  | zero => intro l _; rfl
  | succ f ih =>
    intro l hl
    cases l with
    | nil => rfl
    | cons c t =>
      rw [replaceAllAux]
      have hc := hl c (by simp)
      rw [p5MatchAt_none c t hc.2 hc.1]
      rw [ih t (fun c2 h2 => hl c2 (by simp [h2]))]

/-- Sequential filtering by the four single-character default classes is
filtering by their union. -/
theorem seq4_filter (l : List Char) :
    ((((l.filter (fun c => !(c == '$'))).filter (fun c => !(c == '.'))).filter
        (fun c => !specialChar c)).filter (fun c => !controlChar c))
      = l.filter (fun c => !sChar c) := by
  simp only [List.filter_filter]
  refine List.filter_congr ?_
  intro c _
  simp only [sChar, Bool.not_or]
  cases c == '$' <;> cases c == '.' <;> cases specialChar c <;> cases controlChar c <;> rfl

theorem replaceAll_p5_id (r l : List Char) (h : ∀ c ∈ l, c ≠ '$' ∧ c ≠ '{') :
    replaceAll p5MatchAt r l = l :=
  replaceAllAux_p5_id r l.length l h

/-- With the default pattern set and the default empty replacement, one
combined-alternation pass equals sequential per-pattern application: both
remove exactly the characters of the four single-character classes, and
the fifth pattern contributes nothing (in the combined pass an earlier
alternative always wins; in the sequential pass its triggering characters
are already gone). -/
theorem combined_eq_sequential (l : List Char) :
    replaceAll (combinedMatchAt PATTERNS) [] l
      = PATTERNS.foldl (fun acc p => replaceAll p.matchAt [] acc) l := by
  rw [replaceAll_combined_filter]
  simp only [PATTERNS, List.foldl_cons, List.foldl_nil]
  rw [show pat1 = classPat (fun c => c == '$') from rfl,
      show pat2 = classPat (fun c => c == '.') from rfl,
      show pat3 = classPat specialChar from rfl,
      show pat4 = classPat controlChar from rfl,
      replaceAll_classPat_filter, replaceAll_classPat_filter,
      replaceAll_classPat_filter, replaceAll_classPat_filter,
      show pat5.matchAt = p5MatchAt from rfl]
  rw [replaceAll_p5_id]
  · exact (seq4_filter l).symm
  · intro c hc
    rw [seq4_filter] at hc
    have hmem := List.of_mem_filter hc
    constructor
    · intro he; subst he; simp [sChar] at hmem
    · intro he; subst he; simp [sChar, specialChar] at hmem

/-- C8 (amended): for the default pattern set and the default
`replaceWith = ''`, the combined-alternation `sanitizeString` of
src/index.js produces output identical to the sequential reference
implementation of src/unnamed/part_000, for every string, every string
post-processing configuration and both key/value contexts. -/
theorem C8_amended (so : StringOptions) (s : String) (b : Bool) :
    Index.sanitizeString { DEFAULT_OPTIONS with stringOptions := so } s b
      = P0.sanitizeString { DEFAULT_OPTIONS with stringOptions := so } s b := by
  by_cases he : isEmail s = true
  · simp [Index.sanitizeString, P0.sanitizeString, he]
  · simp only [Index.sanitizeString, P0.sanitizeString, he, Bool.false_eq_true, if_false]
    rw [show ({ DEFAULT_OPTIONS with stringOptions := so } : Options).patterns
        = PATTERNS from rfl,
      show ({ DEFAULT_OPTIONS with stringOptions := so } : Options).replaceWith
        = "" from rfl]
    rw [show ("" : String).data = ([] : List Char) from rfl]
    rw [combined_eq_sequential]

/-- C8 counterexample: the claim as stated (identical output for every
`replaceWith`) is false — with `replaceWith = 'x.y'` the sequential
reference rescans the replacement text in later passes (`'$'` becomes
`'x.y'`, whose dot the second and third patterns each rewrite again,
yielding `'xxx.yyy'`), while the combined single pass yields `'x.y'`. -/
theorem C8_counterexample :
    Index.sanitizeString optsReplaceWith "$" = "x.y" ∧
    P0.sanitizeString optsReplaceWith "$" = "xxx.yyy" := by
  decide

theorem char_toNat_inj {c d : Char} (h : c.toNat = d.toNat) : c = d := by
  cases c with
  | mk v1 h1 =>
    cases d with
    | mk v2 h2 =>
      simp only [Char.toNat] at h
      have : v1 = v2 := by
        cases v1; cases v2
        simp only [UInt32.toNat] at h
        congr 1
        exact BitVec.eq_of_toNat_eq h
      subst this
      rfl

theorem char_eq_iff_toNat {c d : Char} : c = d ↔ c.toNat = d.toNat :=
  ⟨fun h => h ▸ rfl, char_toNat_inj⟩

theorem isSpaceJS_iff (c : Char) : isSpaceJS c = true ↔
    (c.toNat = 0x20 ∨ c.toNat = 0x9 ∨ c.toNat = 0xa ∨ c.toNat = 0xd ∨ c.toNat = 0xb ∨
     c.toNat = 0xc ∨ c.toNat = 0xa0 ∨ c.toNat = 0x1680 ∨
     (0x2000 ≤ c.toNat ∧ c.toNat ≤ 0x200a) ∨ c.toNat = 0x2028 ∨ c.toNat = 0x2029 ∨
     c.toNat = 0x202f ∨ c.toNat = 0x205f ∨ c.toNat = 0x3000 ∨ c.toNat = 0xfeff) := by
  simp only [isSpaceJS, Bool.or_eq_true, Bool.and_eq_true, beq_iff_eq, decide_eq_true_eq,
    char_eq_iff_toNat,
    show (' ' : Char).toNat = 0x20 from rfl, show ('\t' : Char).toNat = 0x9 from rfl,
    show ('\n' : Char).toNat = 0xa from rfl, show ('\r' : Char).toNat = 0xd from rfl,
    show ('\x0b' : Char).toNat = 0xb from rfl, show ('\x0c' : Char).toNat = 0xc from rfl]
  tauto

theorem toLower_toNat_of_upper (c : Char) (h1 : 65 ≤ c.toNat) (h2 : c.toNat ≤ 90) :
    (Char.toLower c).toNat = c.toNat + 32 := by
  unfold Char.toLower
  rw [if_pos ⟨h1, h2⟩]
  have hval : (c.toNat + 32).isValidChar := Or.inl (by omega)
  simp only [Char.ofNat, Char.toNat] at *
  rw [dif_pos hval]
  simp [Char.ofNatAux, UInt32.toNat, BitVec.toNat_ofNatLt]

theorem toLower_eq_of_not_upper (c : Char) (h : ¬(65 ≤ c.toNat ∧ c.toNat ≤ 90)) :
    Char.toLower c = c := by
  unfold Char.toLower
  rw [if_neg h]

theorem toLower_toLower (c : Char) : Char.toLower (Char.toLower c) = Char.toLower c := by
  by_cases h : 65 ≤ c.toNat ∧ c.toNat ≤ 90
  · have := toLower_toNat_of_upper c h.1 h.2
    apply toLower_eq_of_not_upper
    omega
  · rw [toLower_eq_of_not_upper c h]
    exact toLower_eq_of_not_upper c h

theorem isSpaceJS_toLower (c : Char) : isSpaceJS (Char.toLower c) = isSpaceJS c := by
  by_cases h : 65 ≤ c.toNat ∧ c.toNat ≤ 90
  · have hl := toLower_toNat_of_upper c h.1 h.2
    have h1 : isSpaceJS c = false := by
      rw [← Bool.not_eq_true, isSpaceJS_iff]
      omega
    have h2 : isSpaceJS (Char.toLower c) = false := by
      rw [← Bool.not_eq_true, isSpaceJS_iff, hl]
      omega
    rw [h1, h2]
  · rw [toLower_eq_of_not_upper c h]

theorem dropWhile_dropWhile (p : Char → Bool) (l : List Char) :
    (l.dropWhile p).dropWhile p = l.dropWhile p := by
  induction l with
  | nil => rfl
  | cons c t ih =>
    by_cases h : p c = true
    · simp [List.dropWhile_cons, h, ih]
    · simp [List.dropWhile_cons, h]

theorem jsTrimList_idem (l : List Char) : jsTrimList (jsTrimList l) = jsTrimList l := by
  unfold jsTrimList
  set a := l.dropWhile isSpaceJS with ha
  set b := a.reverse.dropWhile isSpaceJS with hb
  have hstep1 : (b.reverse.dropWhile isSpaceJS) = b.reverse := by
    have hsplit : a.reverse = a.reverse.takeWhile isSpaceJS ++ b := by
      rw [hb, List.takeWhile_append_dropWhile]
    have hpre : a = b.reverse ++ (a.reverse.takeWhile isSpaceJS).reverse := by
      have := congrArg List.reverse hsplit
      simpa using this
    cases hbr : b.reverse with
    | nil => simp
    | cons c t =>
      have hac : a = c :: (t ++ (a.reverse.takeWhile isSpaceJS).reverse) := by
        rw [hbr] at hpre
        simpa using hpre
      have hane : l.dropWhile isSpaceJS ≠ [] := by
        rw [← ha, hac]; simp
      have hnc : isSpaceJS c = false := by
        have hh := List.head_dropWhile_not isSpaceJS l hane
        have hhead : (l.dropWhile isSpaceJS).head hane = c := by
          have : l.dropWhile isSpaceJS = c :: (t ++ (a.reverse.takeWhile isSpaceJS).reverse) := by
            rw [← ha]; exact hac
          simp [this]
        rw [hhead] at hh
        exact hh
      rw [List.dropWhile_cons, hnc]
      simp
  rw [hstep1]
  simp only [List.reverse_reverse]
  rw [hb, dropWhile_dropWhile]

theorem jsTrim_idem (s : String) : jsTrim (jsTrim s) = jsTrim s := by
  simp [jsTrim, jsTrimList_idem]

theorem jsLower_idem (s : String) : jsLower (jsLower s) = jsLower s := by
  simp only [jsLower, List.map_map]
  congr 1
  apply List.map_congr_left
  intro c _
  exact toLower_toLower c

theorem dropWhile_map_toLower (l : List Char) :
    (l.map Char.toLower).dropWhile isSpaceJS
      = (l.dropWhile isSpaceJS).map Char.toLower := by
  induction l with
  | nil => rfl
  | cons c t ih =>
    simp only [List.map_cons, List.dropWhile_cons, isSpaceJS_toLower]
    by_cases h : isSpaceJS c = true
    · simp [h, ih]
    · simp [h]

theorem jsTrimList_map_toLower (l : List Char) :
    jsTrimList (l.map Char.toLower) = (jsTrimList l).map Char.toLower := by
  unfold jsTrimList
  rw [dropWhile_map_toLower, ← List.map_reverse, dropWhile_map_toLower, List.map_reverse]

theorem jsTrim_jsLower (s : String) : jsTrim (jsLower s) = jsLower (jsTrim s) := by
  simp [jsTrim, jsLower, jsTrimList_map_toLower]

theorem searchAux_cons_none (m : List Char → Option Nat) (c : Char) (t : List Char) (j : Nat)
    (h : searchAux m (c :: t) j = none) :
    (∀ n, m (c :: t) ≠ some (n + 1)) ∧ searchAux m t (j + 1) = none := by
  cases hm : m (c :: t) with
  | none =>
    simp only [searchAux, hm] at h
    exact ⟨fun n => by simp [hm], h⟩
  | some n =>
    cases n with
    | zero =>
      simp only [searchAux, hm] at h
      exact ⟨fun n => by simp [hm], h⟩
    | succ n =>
      simp [searchAux, hm] at h

theorem searchAux_combined_none (ps : List Pat) :
    ∀ (l : List Char) (j : Nat), (∀ p ∈ ps, searchAux p.matchAt l j = none) →
      searchAux (combinedMatchAt ps) l j = none := by
  intro l
  induction l with
  | nil =>
    intro j h
    cases hm : combinedMatchAt ps [] with
    | none => simp [searchAux, hm]
    | some n =>
      cases n with
      | zero => simp [searchAux, hm]
      | succ n =>
        obtain ⟨p, hp, hpm⟩ := List.exists_of_findSome?_eq_some hm
        have := h p hp
        simp [searchAux, hpm] at this
  | cons c t ih =>
    intro j h
    have hparts := fun p hp => searchAux_cons_none p.matchAt c t j (h p hp)
    have htail : searchAux (combinedMatchAt ps) t (j + 1) = none :=
      ih (j + 1) (fun p hp => (hparts p hp).2)
    cases hm : combinedMatchAt ps (c :: t) with
    | none => simp [searchAux, hm, htail]
    | some n =>
      cases n with
      | zero => simp [searchAux, hm, htail]
      | succ n =>
        obtain ⟨p, hp, hpm⟩ := List.exists_of_findSome?_eq_some hm
        exact absurd hpm ((hparts p hp).1 n)

theorem replaceAllAux_id_of_searchNone (m : List Char → Option Nat) (r : List Char) :
    ∀ (f : Nat) (l : List Char) (j : Nat), searchAux m l j = none →
      replaceAllAux m r f l = l := by
  intro f
  induction f with
  | zero => intro l j _; rfl
  | succ f ih =>
    intro l j h
    cases l with
    | nil => rfl
    | cons c t =>
      obtain ⟨hhead, htail⟩ := searchAux_cons_none m c t j h
      cases hm : m (c :: t) with
      | none =>
        simp only [replaceAllAux, hm]
        rw [ih t (j + 1) htail]
      | some n =>
        cases n with
        | zero =>
          simp only [replaceAllAux, hm]
          rw [ih t (j + 1) htail]
        | succ n => exact absurd hm (hhead n)

/-- A clean string is untouched by the combined replacement pass. -/
theorem replaceAll_id_of_clean (ps : List Pat) (r l : List Char)
    (h : stringClean ps (String.mk l) = true) :
    replaceAll (combinedMatchAt ps) r l = l := by
  apply replaceAllAux_id_of_searchNone (combinedMatchAt ps) r l.length l 0
  apply searchAux_combined_none
  intro p hp
  simp only [stringClean, List.all_eq_true] at h
  have := h p hp
  simpa [Option.isNone_iff_eq_none] using this

/-- Under disabled `maxLength`, the string sanitizer's output is an email
or a fixed point of the enabled post-processing steps. -/
theorem sanitizeString_processed (o : Options) (hml : o.stringOptions.maxLength = none)
    (s : String) (b : Bool) :
    (isEmail (Index.sanitizeString o s b) ||
      strSettled o.stringOptions (Index.sanitizeString o s b)) = true := by
  by_cases he : isEmail s = true
  · simp [Index.sanitizeString, he]
  · rw [Bool.or_eq_true]
    right
    simp only [Index.sanitizeString, he, Bool.false_eq_true, if_false, hml]
    set core := String.mk (replaceAll (combinedMatchAt o.patterns) o.replaceWith.data s.data)
    by_cases htr : o.stringOptions.trim = true <;>
      by_cases hlc : o.stringOptions.lowercase = true <;>
        simp [strSettled, htr, hlc, jsTrim_idem, jsLower_idem, jsTrim_jsLower]

/-- A clean, settled (or email) string is a fixed point of the string
sanitizer when `maxLength` is disabled. -/
theorem sanitizeString_fixpoint (o : Options) (hml : o.stringOptions.maxLength = none)
    (s : String) (b : Bool) (hclean : stringClean o.patterns s = true)
    (hset : (isEmail s || strSettled o.stringOptions s) = true) :
    Index.sanitizeString o s b = s := by
  by_cases he : isEmail s = true
  · simp [Index.sanitizeString, he]
  · have hsettled : strSettled o.stringOptions s = true := by
      rcases Bool.or_eq_true _ _ |>.mp hset with h | h
      · exact absurd h he
      · exact h
    simp only [strSettled, Bool.and_eq_true] at hsettled
    simp only [Index.sanitizeString, he, Bool.false_eq_true, if_false, hml]
    have hcore : String.mk (replaceAll (combinedMatchAt o.patterns) o.replaceWith.data s.data)
        = s := by
      rw [replaceAll_id_of_clean o.patterns _ _ (by simpa using hclean)]
    rw [hcore]
    by_cases htr : o.stringOptions.trim = true <;>
      by_cases hlc : o.stringOptions.lowercase = true <;>
        simp_all [beq_iff_eq]

theorem JsList_all_filter (p : JsValue → Bool) :
    ∀ l : JsList, (l.filter p).all p = true := by
  intro l
  induction l using jsList_ind with
  | nil => rfl
  | cons x xs ih =>
    by_cases h : p x = true
    · simp [JsList.filter, h, JsList.all, ih]
    · simp [JsList.filter, h, ih]

theorem JsList_all_of_filter (p q : JsValue → Bool) :
    ∀ l : JsList, l.all q = true → (l.filter p).all q = true := by
  intro l
  induction l using jsList_ind with
  | nil => intro h; exact h
  | cons x xs ih =>
    intro h
    simp only [JsList.all, Bool.and_eq_true] at h
    by_cases hp : p x = true
    · simp [JsList.filter, hp, JsList.all, h.1, ih h.2]
    · simp [JsList.filter, hp, ih h.2]

theorem JsList_filter_of_all (p : JsValue → Bool) :
    ∀ l : JsList, l.all p = true → l.filter p = l := by
  intro l
  induction l using jsList_ind with
  | nil => intro _; rfl
  | cons x xs ih =>
    intro h
    simp only [JsList.all, Bool.and_eq_true] at h
    simp [JsList.filter, h.1, ih h.2]

theorem listProcessed_filter (o : Options) (p : JsValue → Bool) :
    ∀ l : JsList, listProcessed o l = true → listProcessed o (l.filter p) = true := by
  intro l
  induction l using jsList_ind with
  | nil => intro h; exact h
  | cons x xs ih =>
    intro h
    simp only [listProcessed, Bool.and_eq_true] at h
    by_cases hp : p x = true
    · simp [JsList.filter, hp, listProcessed, h.1, ih h.2]
    · simp [JsList.filter, hp, ih h.2]

theorem listProcessed_dedupAux (o : Options) :
    ∀ (l : JsList) (seen : List JsValue), listProcessed o l = true →
      listProcessed o (setDedupAux seen l) = true := by
  intro l
  induction l using jsList_ind with
  | nil => intro seen h; exact h
  | cons x xs ih =>
    intro seen h
    simp only [listProcessed, Bool.and_eq_true] at h
    unfold setDedupAux
    split
    · exact ih seen h.2
    · simp [listProcessed, h.1, ih _ h.2]

theorem JsList_all_dedupAux (p : JsValue → Bool) :
    ∀ (l : JsList) (seen : List JsValue), l.all p = true →
      (setDedupAux seen l).all p = true := by
  intro l
  induction l using jsList_ind with
  | nil => intro seen h; exact h
  | cons x xs ih =>
    intro seen h
    simp only [JsList.all, Bool.and_eq_true] at h
    unfold setDedupAux
    split
    · exact ih seen h.2
    · simp [JsList.all, h.1, ih _ h.2]

theorem setDedupAux_cons_drop (seen : List JsValue) (x : JsValue) (xs : JsList)
    (h : (!isRefType x && memJs x seen) = true) :
    setDedupAux seen (.cons x xs) = setDedupAux seen xs := by
  simp [setDedupAux, h]

theorem setDedupAux_cons_keep (seen : List JsValue) (x : JsValue) (xs : JsList)
    (h : (!isRefType x && memJs x seen) = false) :
    setDedupAux seen (.cons x xs)
      = .cons x (setDedupAux (if isRefType x then seen else x :: seen) xs) := by
  simp only [setDedupAux, h, Bool.false_eq_true, if_false]

theorem setDedupAux_idem :
    ∀ (l : JsList) (seen : List JsValue),
      setDedupAux seen (setDedupAux seen l) = setDedupAux seen l := by
  intro l
  induction l using jsList_ind with
  | nil => intro seen; rfl
  | cons x xs ih =>
    intro seen
    by_cases hdrop : (!isRefType x && memJs x seen) = true
    · rw [setDedupAux_cons_drop _ _ _ hdrop, ih]
    · have hd : (!isRefType x && memJs x seen) = false := by simpa using hdrop
      rw [setDedupAux_cons_keep _ _ _ hd, setDedupAux_cons_keep _ _ _ hd, ih]

theorem setDedup_idem (l : JsList) : setDedup (setDedup l) = setDedup l :=
  setDedupAux_idem l []

theorem hasKey_append (a b : JsEntries) (k : String) :
    hasKey (a.append b) k = (hasKey a k || hasKey b k) := by
  induction a using jsEntries_ind with
  | nil => simp [JsEntries.append, hasKey]
  | cons k2 v t ih => simp [JsEntries.append, hasKey, ih, Bool.or_assoc]

theorem beq_symm_false {k k2 : String} (h : (k == k2) = false) : (k2 == k) = false := by
  cases hb : k2 == k
  · rfl
  · rw [eq_of_beq hb] at h
    simp at h

theorem keysNodupOk_append_single (acc : JsEntries) (k : String) (v : JsValue) :
    ∀ (_ : keysNodupOk acc = true) (_ : hasKey acc k = false),
      keysNodupOk (acc.append (.cons k v .nil)) = true := by
  induction acc using jsEntries_ind with
  | nil => intro _ _; simp [JsEntries.append, keysNodupOk, hasKey]
  | cons k2 v2 t ih =>
    intro hnd hfresh
    simp only [keysNodupOk, Bool.and_eq_true, Bool.not_eq_true'] at hnd
    simp only [hasKey, Bool.or_eq_false_iff] at hfresh
    simp only [JsEntries.append, keysNodupOk, Bool.and_eq_true, Bool.not_eq_true',
      hasKey_append, hasKey, Bool.or_eq_false_iff]
    exact ⟨⟨hnd.1, by simp [beq_symm_false hfresh.1]⟩, ih hnd.2 hfresh.2⟩

theorem hasKey_setKey (es : JsEntries) (k : String) (v : JsValue) (x : String) :
    hasKey (setKey es k v) x = hasKey es x := by
  induction es using jsEntries_ind with
  | nil => rfl
  | cons k2 v2 t ih =>
    by_cases h : (k2 == k) = true
    · rw [eq_of_beq h]
      simp [setKey, hasKey, ih]
    · simp only [setKey, hasKey]
      rw [if_neg h]
      simp [hasKey, ih]

theorem keysNodupOk_setKey (es : JsEntries) (k : String) (v : JsValue) :
    keysNodupOk es = true → keysNodupOk (setKey es k v) = true := by
  induction es using jsEntries_ind with
  | nil => intro h; exact h
  | cons k2 v2 t ih =>
    intro h
    simp only [keysNodupOk, Bool.and_eq_true] at h
    by_cases hk : (k2 == k) = true
    · rw [eq_of_beq hk] at h ⊢
      simp only [setKey, beq_self_eq_true, if_pos rfl, keysNodupOk, Bool.and_eq_true,
        hasKey_setKey]
      exact ⟨h.1, ih h.2⟩
    · simp only [setKey]
      rw [if_neg hk]
      simp only [keysNodupOk, Bool.and_eq_true, hasKey_setKey]
      exact ⟨h.1, ih h.2⟩

theorem entriesProcessed_setKey (o : Options) (k : String) (v : JsValue)
    (hk : (isEmail k || strSettled o.stringOptions k) = true)
    (hv : valueProcessed o v = true)
    (hre : (!o.removeEmpty || (!k.isEmpty && truthy v)) = true) :
    ∀ es : JsEntries, entriesProcessed o es = true →
      entriesProcessed o (setKey es k v) = true := by
  intro es
  induction es using jsEntries_ind with
  | nil => intro h; exact h
  | cons k2 v2 t ih =>
    intro h
    simp only [entriesProcessed, Bool.and_eq_true] at h
    by_cases hkk : (k2 == k) = true
    · simp only [setKey, if_pos hkk, entriesProcessed, Bool.and_eq_true]
      exact ⟨⟨⟨hk, hv⟩, hre⟩, ih h.2⟩
    · simp only [setKey]
      rw [if_neg hkk]
      simp only [entriesProcessed, Bool.and_eq_true]
      exact ⟨h.1, ih h.2⟩

theorem entriesProcessed_append_single (o : Options) (k : String) (v : JsValue)
    (hk : (isEmail k || strSettled o.stringOptions k) = true)
    (hv : valueProcessed o v = true)
    (hre : (!o.removeEmpty || (!k.isEmpty && truthy v)) = true) :
    ∀ es : JsEntries, entriesProcessed o es = true →
      entriesProcessed o (es.append (.cons k v .nil)) = true := by
  intro es
  induction es using jsEntries_ind with
  | nil =>
    intro _
    simp [JsEntries.append, entriesProcessed, hk, hv, hre]
  | cons k2 v2 t ih =>
    intro h
    simp only [entriesProcessed, Bool.and_eq_true] at h
    simp only [JsEntries.append, entriesProcessed, Bool.and_eq_true]
    exact ⟨h.1, ih h.2⟩

theorem entriesProcessed_objInsert (o : Options) (acc : JsEntries) (k : String) (v : JsValue)
    (hacc : entriesProcessed o acc = true)
    (hk : (isEmail k || strSettled o.stringOptions k) = true)
    (hv : valueProcessed o v = true)
    (hre : (!o.removeEmpty || (!k.isEmpty && truthy v)) = true) :
    entriesProcessed o (objInsert acc k v) = true := by
  unfold objInsert
  split
  · exact entriesProcessed_setKey o k v hk hv hre acc hacc
  · exact entriesProcessed_append_single o k v hk hv hre acc hacc

theorem keysNodupOk_objInsert (acc : JsEntries) (k : String) (v : JsValue)
    (hacc : keysNodupOk acc = true) : keysNodupOk (objInsert acc k v) = true := by
  unfold objInsert
  split
  · exact keysNodupOk_setKey acc k v hacc
  · rename_i h
    exact keysNodupOk_append_single acc k v hacc (by simpa using h)

theorem objInsert_fresh (acc : JsEntries) (k : String) (v : JsValue)
    (h : hasKey acc k = false) : objInsert acc k v = acc.append (.cons k v .nil) := by
  simp [objInsert, h]

theorem append_cons_assoc (acc : JsEntries) (k : String) (v : JsValue) (t : JsEntries) :
    (acc.append (.cons k v .nil)).append t = acc.append (.cons k v t) := by
  induction acc using jsEntries_ind with
  | nil => rfl
  | cons k2 v2 t2 ih => simp [JsEntries.append, ih]

theorem keysDisjoint_append_single (k : String) (v : JsValue) :
    ∀ (t acc : JsEntries), keysDisjoint acc t = true → hasKey t k = false →
      keysDisjoint (acc.append (.cons k v .nil)) t = true := by
  intro t
  induction t using jsEntries_ind with
  | nil => intro acc _ _; rfl
  | cons k2 v2 t2 ih =>
    intro acc hdis hfresh
    simp only [keysDisjoint, Bool.and_eq_true, Bool.not_eq_true'] at hdis
    simp only [hasKey, Bool.or_eq_false_iff] at hfresh
    simp only [keysDisjoint, Bool.and_eq_true, Bool.not_eq_true', hasKey_append, hasKey,
      Bool.or_eq_false_iff]
    exact ⟨⟨hdis.1, by simp [beq_symm_false hfresh.1]⟩, ih acc hdis.2 hfresh.2⟩

theorem keysDisjoint_nil (t : JsEntries) : keysDisjoint .nil t = true := by
  induction t using jsEntries_ind with
  | nil => rfl
  | cons k v t2 ih => simp [keysDisjoint, hasKey, ih]

theorem Index_processed (o : Options) (hrm : o.removeMatches = false)
    (hak : o.allowedKeys = []) (hdk : o.deniedKeys = [])
    (hml : o.stringOptions.maxLength = none) :
    (∀ v : JsValue, ∀ b st, valueProcessed o (Index.sanitizeValue o v b st).1 = true) ∧
    (∀ l : JsList, ∀ st, listProcessed o (Index.sanitizeList o l st).1 = true) ∧
    (∀ es : JsEntries, ∀ acc st, entriesProcessed o acc = true → keysNodupOk acc = true →
      entriesProcessed o (Index.sanitizeEntries o acc es st).1 = true ∧
      keysNodupOk (Index.sanitizeEntries o acc es st).1 = true) := by
  refine js_mutual_ind
    (fun v => ∀ b st, valueProcessed o (Index.sanitizeValue o v b st).1 = true)
    (fun l => ∀ st, listProcessed o (Index.sanitizeList o l st).1 = true)
    (fun es => ∀ acc st, entriesProcessed o acc = true → keysNodupOk acc = true →
      entriesProcessed o (Index.sanitizeEntries o acc es st).1 = true ∧
      keysNodupOk (Index.sanitizeEntries o acc es st).1 = true)
    ?_ ?_ ?_ ?_ ?_ ?_ ?_ ?_ ?_ ?_
  · intro b st; simp [Index.sanitizeValue, truthy, isPrimitive, valueProcessed]
  · intro x b st; simp [Index.sanitizeValue, truthy, isPrimitive, valueProcessed]
  · intro n b st; simp [Index.sanitizeValue, truthy, isPrimitive, valueProcessed]
  · intro s b st
    simp only [Index.sanitizeValue, truthy, isPrimitive, Bool.or_false]
    by_cases hemp : s.isEmpty = true
    · simp [hemp, valueProcessed]
    · simp only [hemp, Bool.not_false, Bool.not_eq_true', Bool.not_true,
        Bool.false_eq_true, if_false]
      have := sanitizeString_processed o hml s b
      simp only [valueProcessed]
      rcases Bool.or_eq_true _ _ |>.mp this with h | h
      · simp [h]
      · simp [h]
  · intro l ih b st
    simp only [Index.sanitizeValue, truthy, isPrimitive, Bool.not_true, Bool.false_or,
      Bool.false_eq_true, if_false]
    have hm := ih st
    simp only [valueProcessed, Bool.and_eq_true]
    set m := (Index.sanitizeList o l st).1 with hmdef
    by_cases hfn : o.arrayOptions.filterNull = true <;>
      by_cases hdis : o.arrayOptions.distinct = true
    · refine ⟨⟨?_, ?_⟩, ?_⟩
      · simp only [hfn, hdis, if_true]
        exact listProcessed_dedupAux o _ [] (listProcessed_filter o truthy m hm)
      · simp only [hfn, hdis, Bool.not_true, Bool.false_or, if_true]
        exact JsList_all_dedupAux truthy _ [] (JsList_all_filter truthy m)
      · simp only [hfn, hdis, Bool.not_true, Bool.false_or, if_true]
        rw [beq_iff_eq]
        exact setDedup_idem _
    · refine ⟨⟨?_, ?_⟩, ?_⟩
      · simp only [hfn, hdis, if_true, Bool.false_eq_true, if_false]
        exact listProcessed_filter o truthy m hm
      · simp only [hfn, hdis, Bool.not_true, Bool.false_or, if_true,
          Bool.false_eq_true, if_false]
        exact JsList_all_filter truthy m
      · simp [hdis]
    · refine ⟨⟨?_, ?_⟩, ?_⟩
      · simp only [hfn, hdis, if_true, Bool.false_eq_true, if_false]
        exact listProcessed_dedupAux o _ [] hm
      · simp [hfn]
      · simp only [hfn, hdis, Bool.not_true, Bool.false_or, if_true,
          Bool.false_eq_true, if_false]
        rw [beq_iff_eq]
        exact setDedup_idem _
    · refine ⟨⟨?_, ?_⟩, ?_⟩
      · simp only [hfn, hdis, Bool.false_eq_true, if_false]
        exact hm
      · simp [hfn]
      · simp [hdis]
  · intro es ih b st
    simp only [Index.sanitizeValue, truthy, isPrimitive, Bool.not_true, Bool.false_or,
      Bool.false_eq_true, if_false]
    have := ih JsEntries.nil st (by rfl) (by rfl)
    simp only [valueProcessed, Bool.and_eq_true]
    exact ⟨this.1, this.2⟩
  · intro st; simp [Index.sanitizeList, listProcessed]
  · intro x xs ihx ihxs st
    simp only [Index.sanitizeList, listProcessed, Bool.and_eq_true]
    exact ⟨ihx true st, ihxs _⟩
  · intro acc st hacc hnd
    simp only [Index.sanitizeEntries]
    exact ⟨hacc, hnd⟩
  · intro k v t ihv iht acc st hacc hnd
    simp only [Index.sanitizeEntries, hrm, hak, hdk, List.isEmpty_nil, Bool.not_true,
      Bool.false_and, List.contains_nil, Bool.or_self, Bool.false_eq_true, if_false,
      Bool.and_false]
    by_cases hskip : (o.removeEmpty && (Index.sanitizeString o k).isEmpty) = true
    · simp only [hskip, if_true]
      exact iht acc st hacc hnd
    · simp only [hskip, Bool.false_eq_true, if_false]
      have hkey := sanitizeString_processed o hml k false
      have hval := ihv true st
      by_cases hkeep : (!o.removeEmpty || truthy (Index.sanitizeValue o v true st).1) = true
      · simp only [hkeep, if_true]
        refine iht _ _ ?_ ?_
        · refine entriesProcessed_objInsert o acc _ _ hacc hkey hval ?_
          by_cases hre : o.removeEmpty = true
          · simp only [hre, Bool.not_true, Bool.false_or]
            simp only [hre, Bool.true_and] at hskip
            simp only [hre, Bool.not_true, Bool.false_or] at hkeep
            rw [Bool.and_eq_true]
            exact ⟨by simpa using hskip, hkeep⟩
          · simp [hre]
        · exact keysNodupOk_objInsert acc _ _ hnd
      · simp only [hkeep, Bool.false_eq_true, if_false]
        exact iht acc _ hacc hnd

theorem JsEntries_append_nil (es : JsEntries) : es.append .nil = es := by
  induction es using jsEntries_ind with
  | nil => rfl
  | cons k v t ih => simp [JsEntries.append, ih]

theorem Index_fixpoint (o : Options) (hrm : o.removeMatches = false)
    (hak : o.allowedKeys = []) (hdk : o.deniedKeys = [])
    (hml : o.stringOptions.maxLength = none) :
    (∀ v : JsValue, ∀ b st, valueProcessed o v = true → valueClean o.patterns v = true →
      Index.sanitizeValue o v b st = (v, st)) ∧
    (∀ l : JsList, ∀ st, listProcessed o l = true → listClean o.patterns l = true →
      Index.sanitizeList o l st = (l, st)) ∧
    (∀ es : JsEntries, ∀ st acc, entriesProcessed o es = true → keysNodupOk es = true →
      entriesClean o.patterns es = true → keysDisjoint acc es = true →
      Index.sanitizeEntries o acc es st = (acc.append es, st)) := by
  refine js_mutual_ind
    (fun v => ∀ b st, valueProcessed o v = true → valueClean o.patterns v = true →
      Index.sanitizeValue o v b st = (v, st))
    (fun l => ∀ st, listProcessed o l = true → listClean o.patterns l = true →
      Index.sanitizeList o l st = (l, st))
    (fun es => ∀ st acc, entriesProcessed o es = true → keysNodupOk es = true →
      entriesClean o.patterns es = true → keysDisjoint acc es = true →
      Index.sanitizeEntries o acc es st = (acc.append es, st))
    ?_ ?_ ?_ ?_ ?_ ?_ ?_ ?_ ?_ ?_
  · intro b st _ _; simp [Index.sanitizeValue, truthy, isPrimitive]
  · intro x b st _ _; simp [Index.sanitizeValue, truthy, isPrimitive]
  · intro n b st _ _; simp [Index.sanitizeValue, truthy, isPrimitive]
  · intro s b st hp hc
    simp only [Index.sanitizeValue, truthy, isPrimitive, Bool.or_false]
    by_cases hemp : s.isEmpty = true
    · simp [hemp]
    · simp only [hemp, Bool.not_false, Bool.not_eq_true', Bool.not_true,
        Bool.false_eq_true, if_false]
      have hp2 : (isEmail s || s.isEmpty || strSettled o.stringOptions s) = true := hp
      have hset : (isEmail s || strSettled o.stringOptions s) = true := by
        cases he : isEmail s
        · cases hs : strSettled o.stringOptions s
          · rw [he, hs, show s.isEmpty = false from by simpa using hemp] at hp2
            exact absurd hp2 (by simp)
          · simp [hs]
        · simp [he]
      rw [sanitizeString_fixpoint o hml s b (by simpa [valueClean] using hc) hset]
  · intro l ih b st hp hc
    simp only [Index.sanitizeValue, truthy, isPrimitive, Bool.not_true, Bool.false_or,
      Bool.false_eq_true, if_false]
    simp only [valueProcessed, Bool.and_eq_true] at hp
    rw [ih st hp.1.1 (by simpa [valueClean] using hc)]
    simp only []
    have hl1 : (if o.arrayOptions.filterNull then l.filter truthy else l) = l := by
      by_cases hfn : o.arrayOptions.filterNull = true
      · simp only [hfn, if_true]
        apply JsList_filter_of_all
        have := hp.1.2
        simpa [hfn] using this
      · simp [hfn]
    rw [hl1]
    have hl2 : (if o.arrayOptions.distinct then setDedup l else l) = l := by
      by_cases hdis : o.arrayOptions.distinct = true
      · simp only [hdis, if_true]
        have := hp.2
        rw [hdis] at this
        simpa [beq_iff_eq] using this
      · simp [hdis]
    rw [hl2]
  · intro es ih b st hp hc
    simp only [Index.sanitizeValue, truthy, isPrimitive, Bool.not_true, Bool.false_or,
      Bool.false_eq_true, if_false]
    simp only [valueProcessed, Bool.and_eq_true] at hp
    rw [ih st .nil hp.1 hp.2 (by simpa [valueClean] using hc) (keysDisjoint_nil es)]
    rfl
  · intro st _ _; rfl
  · intro x xs ihx ihxs st hp hc
    simp only [listProcessed, Bool.and_eq_true] at hp
    simp only [listClean, Bool.and_eq_true] at hc
    simp only [Index.sanitizeList]
    rw [ihx true st hp.1 hc.1, ihxs st hp.2 hc.2]
  · intro st acc _ _ _ _
    simp only [Index.sanitizeEntries, JsEntries_append_nil]
  · intro k v t ihv iht st acc hp hnd hc hdis
    simp only [entriesProcessed, Bool.and_eq_true] at hp
    simp only [keysNodupOk, Bool.and_eq_true] at hnd
    simp only [entriesClean, Bool.and_eq_true] at hc
    simp only [keysDisjoint, Bool.and_eq_true] at hdis
    obtain ⟨⟨⟨hkset, hvp⟩, hre⟩, hpt⟩ := hp
    obtain ⟨hndk, hndt⟩ := hnd
    obtain ⟨⟨hck, hcv⟩, hct⟩ := hc
    obtain ⟨hdk2, hdist⟩ := hdis
    have hsk : Index.sanitizeString o k = k := sanitizeString_fixpoint o hml k false hck hkset
    simp only [Index.sanitizeEntries, hrm, hak, hdk, List.isEmpty_nil, Bool.not_true,
      Bool.false_and, List.contains_nil, Bool.or_self, Bool.false_eq_true, if_false,
      Bool.and_false, hsk]
    have hskip : (o.removeEmpty && k.isEmpty) = false := by
      by_cases hree : o.removeEmpty = true
      · simp only [hree, Bool.not_true, Bool.false_or, Bool.and_eq_true] at hre
        simp [hree, show k.isEmpty = false by simpa using hre.1]
      · simp [hree]
    rw [hskip]
    simp only [Bool.false_eq_true, if_false]
    rw [ihv true st hvp hcv]
    simp only []
    have hkeep : (!o.removeEmpty || truthy v) = true := by
      by_cases hree : o.removeEmpty = true
      · simp only [hree, Bool.not_true, Bool.false_or, Bool.and_eq_true] at hre
        simp [hree, hre.2]
      · simp [hree]
    rw [hkeep]
    simp only [if_true]
    rw [objInsert_fresh acc k v (by simpa using hdk2)]
    rw [iht st _ hpt hndt hct
      (keysDisjoint_append_single k v t acc hdist (by simpa using hndk))]
    rw [append_cons_assoc]

/-- C9: sanitization by src/index.js is idempotent on clean output under
`removeMatches = false` — provided additionally that `allowedKeys` and
`deniedKeys` are empty and `maxLength` is disabled: if no configured pattern
matches any key or string value remaining in the first pass's result, a
second pass (at any regex lastIndex state) returns that result unchanged. -/
theorem C9_amended (o : Options) (hrm : o.removeMatches = false)
    (hak : o.allowedKeys = []) (hdk : o.deniedKeys = [])
    (hml : o.stringOptions.maxLength = none)
    (v : JsValue) (b : Bool) (st st2 : List Nat)
    (hclean : valueClean o.patterns (Index.sanitizeValue o v b st).1 = true) :
    Index.sanitizeValue o (Index.sanitizeValue o v b st).1 b st2
      = ((Index.sanitizeValue o v b st).1, st2) :=
  (Index_fixpoint o hrm hak hdk hml).1 _ b st2
    ((Index_processed o hrm hak hdk hml).1 v b st) hclean

/-- C9 at a concrete instance: under the default configuration, the first
pass maps `{"a$b": "x.y"}` to the pattern-clean `{"ab": "xy"}`, and the
second pass leaves it unchanged. -/
theorem C9_amended_witness :
    Index.sanitizeValue DEFAULT_OPTIONS
        (Index.sanitizeValue DEFAULT_OPTIONS (jObj [("a$b", vStr "x.y")]) false
          [0, 0, 0, 0, 0]).1 false [0, 0, 0, 0, 0]
      = ((Index.sanitizeValue DEFAULT_OPTIONS (jObj [("a$b", vStr "x.y")]) false
          [0, 0, 0, 0, 0]).1, [0, 0, 0, 0, 0]) :=
  C9_amended DEFAULT_OPTIONS rfl rfl rfl rfl (jObj [("a$b", vStr "x.y")]) false
    [0, 0, 0, 0, 0] [0, 0, 0, 0, 0] (by decide)

/-- C9 counterexample: idempotence on clean output fails for some
`removeMatches = false` configurations. With `allowedKeys = ["a.b"]`, the
first pass maps `{"a.b": 1}` to the pattern-clean `{"ab": 1}`, but a second
pass drops the renamed key. With `trim = true` and `maxLength = 2`, the
first pass maps the value `"a b"` of `{"k": "a b"}` to the pattern-clean
`"a "`, which a second pass trims to `"a"`. -/
theorem C9_counterexample :
    optsAllowed.removeMatches = false ∧
    (Index.sanitizeValue optsAllowed (jObj [("a.b", vNum 1)]) false
        [0, 0, 0, 0, 0]).1 = jObj [("ab", vNum 1)] ∧
    valueClean optsAllowed.patterns (jObj [("ab", vNum 1)]) = true ∧
    (Index.sanitizeValue optsAllowed (jObj [("ab", vNum 1)]) false
        [0, 0, 0, 0, 0]).1 = jObj [] ∧
    optsTrimMax.removeMatches = false ∧
    (Index.sanitizeValue optsTrimMax (jObj [("k", vStr "a b")]) false
        [0, 0, 0, 0, 0]).1 = jObj [("k", vStr "a ")] ∧
    valueClean optsTrimMax.patterns (jObj [("k", vStr "a ")]) = true ∧
    (Index.sanitizeValue optsTrimMax (jObj [("k", vStr "a ")]) false
        [0, 0, 0, 0, 0]).1 = jObj [("k", vStr "a")] := by
  decide
